import Mathlib

/-!
Verification of the space-time-stack profiling aggregator
(`kp_space_time_stack.cpp`): a shallow embedding of the stack-tree
builder, tree inversion, the cross-process (MPI) reduction protocol,
the allocation high-water-mark ledger, and the session state machine,
together with proofs of the specified properties.

Modelling conventions:
* `double` durations are embedded as exact rationals (`ℚ`);
* `std::uint64_t` counters use `Nat` with explicit reduction mod `2^64`
  where the C++ arithmetic wraps;
* pointers used only as identities (`void* ptr`, correlation tokens,
  the current-frame cursor) are embedded as structural identities:
  an allocation address is a `Nat`, a node identity is its path of
  `(kind, name)` keys from the root;
* fatal `assert` / `abort` paths are embedded as `Except String`
  results, the error string being the emitted diagnostic;
* the MPI collectives are embedded functionally: `reduce_over_mpi`
  takes the authority (rank 0) tree and the list of the other ranks'
  trees and returns the merged tree as visible on the authority rank,
  which is the rank whose report is printed.
-/

set_option linter.unusedVariables false

inductive StackKind where
  | STACK_FOR
  | STACK_REDUCE
  | STACK_SCAN
  | STACK_REGION
  | STACK_COPY
deriving DecidableEq, Repr

/-- `int(kind)` as used by `StackNode::operator<`. -/
def StackKind.toNat : StackKind → Nat
  | .STACK_FOR => 0
  | .STACK_REDUCE => 1
  | .STACK_SCAN => 2
  | .STACK_REGION => 3
  | .STACK_COPY => 4

/-- A child key: children are keyed uniquely by `(kind, name)`. -/
abbrev Key := StackKind × String

/-- One node of the call/region tree (`struct StackNode`).  The C++
`parent` back-pointer is represented implicitly: a node is always
addressed by its path of keys from the root.  `max_runtime` and
`avg_runtime` are uninitialized in the C++ constructor and only
meaningful after `reduce_over_mpi`; they are initialized to `0` here. -/
inductive StackNode where
  | mk (name : String) (kind : StackKind) (children : List StackNode)
       (total_runtime : ℚ) (max_runtime : ℚ) (avg_runtime : ℚ)
       (number_of_calls : Int) (start_time : ℚ)
deriving Repr

def StackNode.name : StackNode → String
  | .mk n _ _ _ _ _ _ _ => n

def StackNode.kind : StackNode → StackKind
  | .mk _ k _ _ _ _ _ _ => k

def StackNode.children : StackNode → List StackNode
  | .mk _ _ c _ _ _ _ _ => c

def StackNode.total_runtime : StackNode → ℚ
  | .mk _ _ _ t _ _ _ _ => t

def StackNode.max_runtime : StackNode → ℚ
  | .mk _ _ _ _ m _ _ _ => m

def StackNode.avg_runtime : StackNode → ℚ
  | .mk _ _ _ _ _ a _ _ => a

def StackNode.number_of_calls : StackNode → Int
  | .mk _ _ _ _ _ _ c _ => c

def StackNode.start_time : StackNode → ℚ
  | .mk _ _ _ _ _ _ _ s => s

/-- The key of a node. -/
def StackNode.key (t : StackNode) : Key := (t.kind, t.name)

/-- A fresh child as constructed by `StackNode`'s constructor:
zero counters, no children. -/
def newNode (k : Key) : StackNode :=
  .mk k.2 k.1 [] 0 0 0 0 0

/-- `StackNode::operator<`: order children by kind (as int), then name. -/
def nodeLt (a b : StackNode) : Bool :=
  if a.kind ≠ b.kind then a.kind.toNat < b.kind.toNat
  else a.name < b.name

/-- Look a child up by `(kind, name)` among a children list, as
`children.find(candidate)` does with the `operator<` equivalence
(equal kind and equal name). -/
def findChild (l : List StackNode) (k : Key) : Option StackNode :=
  l.find? (fun c => c.kind = k.1 ∧ c.name = k.2)

/-- Insert a node at its `operator<`-ordered position, as
`children.emplace` does.  Only ever called when no equivalent
element is present. -/
def insertNodeSorted (l : List StackNode) (c : StackNode) : List StackNode :=
  match l with
  | [] => [c]
  | x :: xs => if nodeLt c x then c :: x :: xs else x :: insertNodeSorted xs c

/-- Apply a function to the first child with the given key (the element
`children.find` returns); leave the list unchanged if there is none. -/
def updateFirst (l : List StackNode) (k : Key) (f : StackNode → StackNode) :
    List StackNode :=
  match l with
  | [] => []
  | x :: xs => if x.kind = k.1 ∧ x.name = k.2 then f x :: xs
               else x :: updateFirst xs k f

/-- `StackNode::get_child`: find the `(kind, name)` child, creating it
with zero counters if absent.  Returns the child together with the
updated parent (the C++ returns a pointer into the parent's set). -/
def StackNode.get_child (t : StackNode) (child_name : String)
    (child_kind : StackKind) : StackNode × StackNode :=
  match findChild t.children (child_kind, child_name) with
  | some c => (c, t)
  | none =>
      let c := newNode (child_kind, child_name)
      (c, .mk t.name t.kind (insertNodeSorted t.children c) t.total_runtime
          t.max_runtime t.avg_runtime t.number_of_calls t.start_time)

/-- Node at a path of keys below `t` (`t` itself for the empty path). -/
def lookupAt (t : StackNode) : List Key → Option StackNode
  | [] => some t
  | k :: ks =>
      match findChild t.children k with
      | none => none
      | some c => lookupAt c ks

/-- Apply `f` to the node at a path of keys below `t` (no-op if the
path does not exist). -/
def updateAt (t : StackNode) : List Key → (StackNode → StackNode) → StackNode
  | [], f => f t
  | k :: ks, f =>
      .mk t.name t.kind (updateFirst t.children k (fun c => updateAt c ks f))
        t.total_runtime t.max_runtime t.avg_runtime t.number_of_calls
        t.start_time

/-- Ensure the `(kind, name)` child exists under a children list
(the mutation `get_child` performs on the parent). -/
def ensureChild (l : List StackNode) (k : Key) : List StackNode :=
  match findChild l k with
  | some _ => l
  | none => insertNodeSorted l (newNode k)

/-- The mutation `get_child` performs on its receiver node: ensure the
`(kind, name)` child is present among the children. -/
def ensureHere (k : Key) : StackNode → StackNode
  | .mk nm kd cs tr mr ar cl st => .mk nm kd (ensureChild cs k) tr mr ar cl st

/-- `get_child` at the node addressed by path `p`: the tree after
find-or-create of child `k` under that node. -/
def ensureAt (t : StackNode) (p : List Key) (k : Key) : StackNode :=
  updateAt t p (ensureHere k)

/-- `StackNode::begin`: increment the call count, record the start time. -/
def beginNode (t : ℚ) (nd : StackNode) : StackNode :=
  .mk nd.name nd.kind nd.children nd.total_runtime nd.max_runtime
    nd.avg_runtime (nd.number_of_calls + 1) t

/-- `StackNode::end`: add `end_time - start_time` to the total. -/
def endNode (end_time : ℚ) (nd : StackNode) : StackNode :=
  .mk nd.name nd.kind nd.children (nd.total_runtime + (end_time - nd.start_time))
    nd.max_runtime nd.avg_runtime nd.number_of_calls nd.start_time

/-- The loop of `StackNode::get_full_name`, over the list of names from
the node up to the root (the root's name last): each name is prepended
together with a `'/'`; an empty name is skipped only at the root
(`p->name.empty() && !p->parent`). -/
def full_name_loop : List String → String → String
  | [], acc => acc
  | [r], acc => if r = "" then acc else r ++ "/" ++ acc
  | n :: rest, acc => full_name_loop rest (n ++ "/" ++ acc)

/-- The chain of nodes from `t` down along path `p`, `t` first. -/
def pathNodes (t : StackNode) : List Key → Option (List StackNode)
  | [] => some [t]
  | k :: ks =>
      match findChild t.children k with
      | none => none
      | some c => (pathNodes c ks).map (t :: ·)

/-- `StackNode::get_full_name` of the node at path `p` below root `t`:
walk the parent links up to the root, prepending each name and a `'/'`,
the empty-named root excepted.  (For an invalid path: `""`.) -/
def get_full_name (t : StackNode) (p : List Key) : String :=
  match pathNodes t p with
  | some l => full_name_loop (l.map StackNode.name).reverse ""
  | none => ""

mutual

/-- Number of nodes of a tree. -/
def treeSize : StackNode → Nat
  | .mk _ _ cs _ _ _ _ _ => 1 + treeSizeList cs

/-- Total number of nodes of a forest. -/
def treeSizeList : List StackNode → Nat
  | [] => 0
  | t :: ts => treeSize t + treeSizeList ts

end

/-- Sum of the children's `total_runtime` of a node. -/
def childrenRuntimeSum (t : StackNode) : ℚ :=
  (t.children.map StackNode.total_runtime).sum

/-- The `self_time` computed for a visited node during `invert`:
its total minus the sum of its children's totals. -/
def selfTime (t : StackNode) : ℚ :=
  t.total_runtime - childrenRuntimeSum t

/-- The inner chain walk of `StackNode::invert`: starting at the
inverted root, add `self_time`/`calls` there, then follow the chain of
`(kind, name)` keys (visited node first, then its ancestors up to the
original root), doing `get_child` and accumulating at every node of
that inverted path. -/
def addChain (t : StackNode) (chain : List Key) (s : ℚ) (c : Int) : StackNode :=
  match chain with
  | [] =>
      .mk t.name t.kind t.children (t.total_runtime + s) t.max_runtime
        t.avg_runtime (t.number_of_calls + c) t.start_time
  | k :: rest =>
      let kids :=
        match findChild t.children k with
        | some _ => updateFirst t.children k (fun x => addChain x rest s c)
        | none => insertNodeSorted t.children (addChain (newNode k) rest s c)
      .mk t.name t.kind kids (t.total_runtime + s) t.max_runtime
        t.avg_runtime (t.number_of_calls + c) t.start_time

/-- The breadth-first queue traversal of `StackNode::invert` (and of
`reduce_over_mpi`): pop a node, push its children.  Each queue entry
carries the key chain from that node up to the original root (the
chain `invert`'s inner loop follows).  `fuel` bounds the number of
pops; `invert` passes the tree size, which is exactly enough. -/
def bfsPairs (fuel : Nat) (q : List (StackNode × List Key)) :
    List (StackNode × List Key) :=
  match fuel, q with
  | _, [] => []
  | 0, _ => []
  | fuel + 1, (t, chain) :: rest =>
      (t, chain) ::
        bfsPairs fuel
          (rest ++ t.children.map (fun ch => (ch, ch.key :: chain)))

/-- `StackNode::invert`: breadth-first traversal of the tree; for each
visited node, its `self_time` and call count are accumulated at the
inverted root and along the reversed ancestor chain in the inverted
tree. -/
def StackNode.invert (t : StackNode) : StackNode :=
  (bfsPairs (treeSize t) [(t, [t.key])]).foldl
    (fun acc p => addChain acc p.2 (selfTime p.1) p.1.number_of_calls)
    (.mk "" .STACK_REGION [] 0 0 0 0 0)

mutual

/-- The merged tree `reduce_over_mpi` produces, as visible on the
authority rank (rank 0, the rank whose report is printed): per node,
`total_runtime` becomes the all-reduce sum of the ranks'
`total_runtime`, `max_runtime` their maximum, `avg_runtime` the sum
divided by the communicator size `n`; the children are the authority's
children (children only other ranks have are never broadcast and so
never enter the merged result), and recursion pairs each authority
child with the corresponding (possibly placeholder) child of every
other rank. -/
def reduceNode (n : Nat) (others : List StackNode) : StackNode → StackNode
  | .mk name kind children tr mr ar calls st =>
      let ts := others.map StackNode.total_runtime
      let sum := tr + ts.sum
      .mk name kind (reduceChildren n (others.map StackNode.children) children)
        sum (ts.foldl max tr) (sum / n) calls st

/-- Recurse over the authority's children, pairing each with the other
ranks' matching children. -/
def reduceChildren (n : Nat) (othersKids : List (List StackNode)) :
    List StackNode → List StackNode
  | [] => []
  | c :: rest =>
      reduceNode n
          (othersKids.map (fun l =>
            match findChild l c.key with
            | some c' => c'
            | none => newNode c.key)) c ::
        reduceChildren n othersKids rest

end

/-- `StackNode::reduce_over_mpi`: `auth` is the tree of rank 0 (the
authority), `others` the trees of the remaining ranks; the communicator
size is the number of participating ranks. -/
def reduce_over_mpi (auth : StackNode) (others : List StackNode) : StackNode :=
  reduceNode (1 + others.length) others auth

/-- One line of the report emitted by `print_recursive`:
`<indent><percent>% <imbalance>% <number_of_calls> <name> [<kind>]`. -/
structure PrintLine where
  indent : String
  percent : ℚ
  imbalance : ℚ
  number_of_calls : Int
  name : String
  kind : StackKind
deriving Repr, DecidableEq

/-- The `by_time` comparator of `print_recursive`: descending
`total_runtime`, ties broken by ascending name. -/
def byTime (a b : StackNode) : Bool :=
  if a.total_runtime ≠ b.total_runtime then a.total_runtime > b.total_runtime
  else a.name < b.name

/-- `std::set` insertion under the `by_time` comparator: place the node
at its ordered position; if an equivalent element (neither less nor
greater) is already present, the insertion fails and the node is
dropped. -/
def insertByTime (l : List StackNode) (c : StackNode) : List StackNode :=
  match l with
  | [] => [c]
  | x :: xs =>
      if byTime c x then c :: x :: xs
      else if byTime x c then x :: insertByTime xs c
      else x :: xs

/-- `children_by_time`: the children inserted one by one into the
`by_time`-ordered set. -/
def childrenByTime (l : List StackNode) : List StackNode :=
  l.foldl insertByTime []

/-- `StackNode::print_recursive`.  A frame whose share of `tree_time`
is below 0.1% contributes nothing (its whole subtree is skipped); an
emitted line carries the percent, the imbalance
`(max_runtime / avg_runtime - 1) * 100`, the call count, name and
kind; children are visited in `by_time` order and the last child gets
the closing indent.  `fuel` bounds the recursion depth; `print` passes
the tree size, which always suffices. -/
def print_recursive (fuel : Nat) (t : StackNode)
    (my_indent child_indent : String) (tree_time : ℚ) : List PrintLine :=
  match fuel with
  | 0 => []
  | fuel + 1 =>
      let percent := t.total_runtime / tree_time * 100
      if percent < 1/10 then []
      else
        let own : List PrintLine :=
          if t.name = "" then []
          else [⟨my_indent, percent, (t.max_runtime / t.avg_runtime - 1) * 100,
                 t.number_of_calls, t.name, t.kind⟩]
        if t.children.isEmpty then own
        else
          let cbt := childrenByTime t.children
          own ++ cbt.enum.flatMap (fun ic =>
            print_recursive fuel ic.2 (child_indent ++ "|-> ")
              (child_indent ++ (if ic.1 = cbt.length - 1 then "    " else "|   "))
              tree_time)

/-- `StackNode::print`: the report lines for the whole tree, with
`tree_time` the root's `total_runtime`. -/
def StackNode.print (t : StackNode) : List PrintLine :=
  print_recursive (treeSize t) t "" "" t.total_runtime

/-- The memory spaces (`enum Space`). -/
inductive Space where
  | SPACE_HOST
  | SPACE_CUDA
deriving DecidableEq, Repr

/-- Modulus of the C++ `std::uint64_t` arithmetic. -/
def UINT64 : Nat := 2 ^ 64

/-- `struct Allocation`: the pointer is an identity (never
dereferenced), `frame` is the path of the frame that was current at
allocation time (null if the cursor was null). -/
structure Allocation where
  name : String
  ptr : Nat
  size : Nat
  frame : Option (List Key)
deriving Repr, DecidableEq

/-- `Allocation::operator<`: size first (descending, so iteration
yields largest allocations first), pointer as tiebreak; `name` and
`frame` take no part. -/
def allocLt (a b : Allocation) : Bool :=
  if a.size ≠ b.size then a.size > b.size
  else a.ptr < b.ptr

/-- `alloc_set.find(key)` under the `operator<` equivalence: the first
record with exactly this `(size, ptr)` pair. -/
def findAlloc (l : List Allocation) (size ptr : Nat) : Option Allocation :=
  l.find? (fun a => a.size = size ∧ a.ptr = ptr)

/-- `std::set` insertion of a record at its `operator<` position (only
called when no equivalent record is present). -/
def insertAllocSorted (l : List Allocation) (a : Allocation) : List Allocation :=
  match l with
  | [] => [a]
  | x :: xs => if allocLt a x then a :: x :: xs else x :: insertAllocSorted xs a

/-- `alloc_set.erase(it)` for the iterator `find` returned: remove the
first record with this `(size, ptr)` pair. -/
def removeAlloc (l : List Allocation) (size ptr : Nat) : List Allocation :=
  match l with
  | [] => []
  | x :: xs => if x.size = size ∧ x.ptr = ptr then xs
               else x :: removeAlloc xs size ptr

/-- `struct Allocations`: the running total and the live records. -/
structure Allocations where
  total_size : Nat
  alloc_set : List Allocation
deriving Repr, DecidableEq

/-- `Allocations::allocate`: emplace the record — a live record with
the same `(size, ptr)` key makes the emplace fail, which trips the
`assert(res.second)` — then add the size to the total. -/
def Allocations.allocate (al : Allocations) (name : String) (ptr size : Nat)
    (frame : Option (List Key)) : Except String Allocations :=
  let sz := size % UINT64
  match findAlloc al.alloc_set sz ptr with
  | some _ => .error "Allocations::allocate: assert(res.second) failed"
  | none => .ok ⟨(al.total_size + sz) % UINT64,
                 insertAllocSorted al.alloc_set ⟨name, ptr, sz, frame⟩⟩

/-- `Allocations::deallocate`: find the record by `(size, ptr)` — a
missing record trips `assert(it != alloc_set.end())` — subtract the
record's own stored size from the total, and erase it. -/
def Allocations.deallocate (al : Allocations) (name : String) (ptr size : Nat)
    (frame : Option (List Key)) : Except String Allocations :=
  let sz := size % UINT64
  match findAlloc al.alloc_set sz ptr with
  | none => .error "Allocations::deallocate: assert(it != alloc_set.end()) failed"
  | some r => .ok ⟨(al.total_size + UINT64 - r.size) % UINT64,
                   removeAlloc al.alloc_set sz ptr⟩

/-- `struct State`: the tree, the current-frame cursor (a path of keys;
`none` models a null `stack_frame`), and the per-space current and
high-water-mark ledgers. -/
structure State where
  stack_root : StackNode
  stack_frame : Option (List Key)
  current_allocations : Space → Allocations
  hwm_allocations : Space → Allocations

/-- `State::State()`: root frame with empty name and REGION kind,
begun at construction time; cursor at the root; empty ledgers. -/
def State.init (t0 : ℚ) : State :=
  { stack_root := beginNode t0 (.mk "" .STACK_REGION [] 0 0 0 0 0)
    stack_frame := some []
    current_allocations := fun _ => ⟨0, []⟩
    hwm_allocations := fun _ => ⟨0, []⟩ }

/-- The parent of the frame at path `p` (`none` — null — for the root). -/
def parentPath (p : List Key) : Option (List Key) :=
  if p = [] then none else some p.dropLast

/-- `State::begin_frame`: cursor moves to the found-or-created child,
which is begun.  (A null cursor would be dereferenced by the C++ —
undefined behavior, embedded as an error.) -/
def State.begin_frame (s : State) (name : String) (kind : StackKind) (t : ℚ) :
    Except String State :=
  match s.stack_frame with
  | none => .error "undefined behavior: begin_frame with null stack_frame"
  | some p =>
      let k : Key := (kind, name)
      .ok { s with
        stack_root := updateAt (ensureAt s.stack_root p k) (p ++ [k]) (beginNode t)
        stack_frame := some (p ++ [k]) }

/-- `State::end_frame`: end the cursor frame and move the cursor to its
parent — with no check: ending at the root leaves a null cursor. -/
def State.end_frame (s : State) (t : ℚ) : Except String State :=
  match s.stack_frame with
  | none => .error "undefined behavior: end_frame with null stack_frame"
  | some p =>
      .ok { s with
        stack_root := updateAt s.stack_root p (endNode t)
        stack_frame := parentPath p }

/-- `State::begin_kernel`: begin the frame and hand back the new cursor
frame's identity as the correlation token (the C++ returns the node's
address). -/
def State.begin_kernel (s : State) (name : String) (kind : StackKind) (t : ℚ) :
    Except String (List Key × State) :=
  match s.begin_frame name kind t with
  | .error e => .error e
  | .ok s' => .ok (s'.stack_frame.getD [], s')

/-- `State::end_kernel`: a token that does not identify the current
cursor frame is a fatal protocol violation — diagnostic naming the
frame that was expected to end, then abort; otherwise `end_frame`. -/
def State.end_kernel (s : State) (kernid : List Key) (t : ℚ) :
    Except String State :=
  match s.stack_frame with
  | none => .error "undefined behavior: end_kernel with null stack_frame"
  | some p =>
      if kernid ≠ p then
        .error ("Expected \"" ++ get_full_name s.stack_root p ++
          "\" to end, got different kernel ID")
      else s.end_frame t

/-- `State::push_region`: `begin_frame` with REGION kind. -/
def State.push_region (s : State) (name : String) (t : ℚ) :
    Except String State :=
  s.begin_frame name .STACK_REGION t

/-- `State::pop_region`: plain `end_frame` — no token, no check. -/
def State.pop_region (s : State) (t : ℚ) : Except String State :=
  s.end_frame t

/-- `State::allocate`: record in the space's current ledger, attributed
to the cursor frame; if the new total exceeds the space's stored
high-water mark, the whole current ledger replaces the stored
snapshot (a full copy — later deallocations leave it untouched). -/
def State.allocate (s : State) (space : Space) (name : String)
    (ptr size : Nat) : Except String State :=
  match (s.current_allocations space).allocate name ptr size s.stack_frame with
  | .error e => .error e
  | .ok cur =>
      let newCur := fun sp => if sp = space then cur else s.current_allocations sp
      let newHwm :=
        if cur.total_size > (s.hwm_allocations space).total_size then
          fun sp => if sp = space then cur else s.hwm_allocations sp
        else s.hwm_allocations
      .ok { s with current_allocations := newCur, hwm_allocations := newHwm }

/-- `State::deallocate`: remove from the space's current ledger; the
high-water snapshots are not touched. -/
def State.deallocate (s : State) (space : Space) (name : String)
    (ptr size : Nat) : Except String State :=
  match (s.current_allocations space).deallocate name ptr size s.stack_frame with
  | .error e => .error e
  | .ok cur =>
      .ok { s with
        current_allocations :=
          fun sp => if sp = space then cur else s.current_allocations sp }

/-- `State::~State()`, up to the report: a cursor away from the root
(an unterminated frame — including the null cursor a root-level pop
leaves) is fatal, with a diagnostic naming the unterminated frame;
otherwise the root frame is ended and returned for inversion,
reduction and printing. -/
def State.finalize (s : State) (t : ℚ) : Except String StackNode :=
  if s.stack_frame ≠ some [] then
    .error ("Program ended before \"" ++
      (match s.stack_frame with
       | some p => get_full_name s.stack_root p
       | none => "") ++ "\" ended")
  else .ok (updateAt s.stack_root [] (endNode t))

/-- The allocate/deallocate event stream driving a session's ledgers. -/
inductive MemEvent where
  | alloc (space : Space) (name : String) (ptr : Nat) (size : Nat)
  | dealloc (space : Space) (name : String) (ptr : Nat) (size : Nat)
deriving Repr, DecidableEq

def MemEvent.isDealloc : MemEvent → Bool
  | .dealloc _ _ _ _ => true
  | .alloc _ _ _ _ => false

/-- Dispatch one memory event to the session. -/
def stepMem (s : State) : MemEvent → Except String State
  | .alloc sp n p z => s.allocate sp n p z
  | .dealloc sp n p z => s.deallocate sp n p z

/-- Run a memory event stream; an assertion failure aborts the run. -/
def runMem (s : State) : List MemEvent → Except String State
  | [] => .ok s
  | e :: rest =>
      match stepMem s e with
      | .error msg => .error msg
      | .ok s' => runMem s' rest

/-- Sum of the live records' sizes. -/
def sumSizes (l : List Allocation) : Nat :=
  (l.map Allocation.size).sum

/-- Total of the sizes (as `uint64` values) of the allocate events. -/
def allocSizesSum : List MemEvent → Nat
  | [] => 0
  | .alloc _ _ _ z :: rest => z % UINT64 + allocSizesSum rest
  | .dealloc _ _ _ _ :: rest => allocSizesSum rest

/-- The values `total_bytes` takes in space `sp` after each event of a
successful run. -/
def traceTotals (sp : Space) (s : State) : List MemEvent → List Nat
  | [] => []
  | e :: rest =>
      match stepMem s e with
      | .error _ => []
      | .ok s' => (s'.current_allocations sp).total_size :: traceTotals sp s' rest

/-- The maximum `total_bytes` ever observed in space `sp` during a run
(`0` before any event). -/
def maxTotalObserved (sp : Space) (s : State) (evts : List MemEvent) : Nat :=
  (traceTotals sp s evts).foldl max 0

mutual

/-- Every node of the tree: the root and all descendants. -/
def allNodes : StackNode → List StackNode
  | .mk n k cs t m a c s => .mk n k cs t m a c s :: allNodesList cs

def allNodesList : List StackNode → List StackNode
  | [] => []
  | t :: ts => allNodes t ++ allNodesList ts

end

/-- The runtime a rank contributes at tree position `p` during the
reduction: its node's total where the path exists, `0` (the placeholder
created by `get_child`) where it does not. -/
def rankRuntime (o : StackNode) (p : List Key) : ℚ :=
  match lookupAt o p with
  | some n => n.total_runtime
  | none => 0

/-- A sequence of `get_child` (find-or-create) operations, each given
by the path of the parent and the key of the child. -/
def applyEnsures (t : StackNode) (ops : List (List Key × Key)) : StackNode :=
  ops.foldl (fun acc op => ensureAt acc op.1 op.2) t

/-- Equality of every per-frame field except the children: what stays
untouched in a frame when other children are inserted elsewhere. -/
def sameFrameFields (a b : StackNode) : Prop :=
  a.name = b.name ∧ a.kind = b.kind ∧ a.total_runtime = b.total_runtime ∧
  a.max_runtime = b.max_runtime ∧ a.avg_runtime = b.avg_runtime ∧
  a.number_of_calls = b.number_of_calls ∧ a.start_time = b.start_time

/-- The running ledger invariant: in every space, the current total is
the sum of the live record sizes, it never exceeds the stored
high-water-mark total, and every live size is a `uint64` value. -/
def LedgerInv (s : State) : Prop :=
  ∀ sp, (s.current_allocations sp).total_size =
      sumSizes (s.current_allocations sp).alloc_set ∧
    (s.current_allocations sp).total_size ≤
      (s.hwm_allocations sp).total_size ∧
    ∀ a ∈ (s.current_allocations sp).alloc_set, a.size < UINT64

/-- Rank 0's tree in the 2-process reduction scenario: frames `{A, B}`. -/
def rank0Tree : StackNode :=
  .mk "" .STACK_REGION
    [ .mk "A" .STACK_FOR [] 2 0 0 1 0,
      .mk "B" .STACK_FOR [] 4 0 0 1 0 ] 6 0 0 1 0

/-- Rank 1's tree in the 2-process reduction scenario: frames `{A, C}`. -/
def rank1Tree : StackNode :=
  .mk "" .STACK_REGION
    [ .mk "A" .STACK_FOR [] 3 0 0 1 0,
      .mk "C" .STACK_FOR [] 5 0 0 1 0 ] 8 0 0 1 0

/-- The 10ms-"A" / 30ms-"B" printing scenario, before reduction
(durations in milliseconds). -/
def printScenarioTree : StackNode :=
  .mk "" .STACK_REGION
    [ .mk "A" .STACK_FOR [] 10 0 0 1 0,
      .mk "B" .STACK_FOR [] 30 0 0 1 0 ] 40 0 0 1 0

/-- A well-formed sample tree for the inversion witness. -/
def invertSampleTree : StackNode :=
  .mk "" .STACK_REGION
    [ .mk "x" .STACK_FOR [ .mk "z" .STACK_REDUCE [] 1 0 0 1 0 ] 4 0 0 2 0,
      .mk "y" .STACK_REGION [] 3 0 0 1 0 ] 10 0 0 1 0

/-- The allocation scenario of the specification: `buf1` (1000 bytes),
then `buf2` (200 bytes), then deallocate `buf1`. -/
def allocScenarioEvents : List MemEvent :=
  [ .alloc .SPACE_HOST "buf1" 1 1000,
    .alloc .SPACE_HOST "buf2" 2 200,
    .dealloc .SPACE_HOST "buf1" 1 1000 ]

/-- The session state the allocation scenario ends in. -/
def allocScenarioState : State :=
  match runMem (State.init 0) allocScenarioEvents with
  | .ok s => s
  | .error _ => State.init 0

/-- A session with one open frame `("A", FOR)` under the root, for the
end-kernel witnesses. -/
def oneFrameState : State :=
  match (State.init 0).begin_frame "A" .STACK_FOR 1 with
  | .ok s => s
  | .error _ => State.init 0

/-- A one-record ledger for the deallocation-matching witness. -/
def oneAllocLedger : Allocations :=
  ⟨1000, [⟨"buf", 7, 1000, some []⟩]⟩

/-- The tree built by `get_or_create_child("A")` under the root followed
by `get_or_create_child("B")` under the result. -/
def c4Tree : StackNode :=
  ensureAt (ensureAt (.mk "" .STACK_REGION [] 0 0 0 0 0) [] (.STACK_FOR, "A"))
    [(.STACK_FOR, "A")] (.STACK_FOR, "B")

/-- The path of the `"B"` frame in `c4Tree`. -/
def c4Path : List Key := [(.STACK_FOR, "A"), (.STACK_FOR, "B")]

/-- C4, counterexample: the full path of the frame created by
`get_or_create_child("A")` → `get_or_create_child("B")` under the root
is not `"A/B"` — the walk appends a `'/'` after every name, so the
result carries a trailing slash. -/
theorem get_full_name_not_AB : ¬ (get_full_name c4Tree c4Path = "A/B") := by
  decide

/-- C4, amended: the full path of that frame is exactly `"A/B/"` —
non-empty names each followed by `'/'`, the empty-named root
contributing nothing. -/
theorem get_full_name_AB_slash : get_full_name c4Tree c4Path = "A/B/" := by
  decide

/-- C6, counterexample: with the cursor at the root, `pop_region` does
not abort — it returns normally (and the cursor becomes null), so "pop
at root is fatal inside `pop_region`" is false of the code. -/
theorem pop_region_at_root_returns : (State.pop_region (State.init 0) 1).isOk = true ∧
    ∃ s', State.pop_region (State.init 0) 1 = .ok s' ∧ s'.stack_frame = none := by
  refine ⟨rfl, ⟨_, rfl, rfl⟩⟩

/-- C6, amended: a `pop_region` with the cursor at the root does not
abort; `end_frame` runs on the root and the cursor moves to the root's
null parent (outside the tree).  The protocol violation is detected
fatally only at finalization, whose cursor-at-root check fails and
aborts with the unterminated-frame diagnostic. -/
theorem pop_region_at_root_deferred_fatal (s : State) (t t' : ℚ)
    (h : s.stack_frame = some []) :
    ∃ s', s.pop_region t = .ok s' ∧ s'.stack_frame = none ∧
      ∃ msg, s'.finalize t' = .error msg := by
  unfold State.pop_region State.end_frame
  rw [h]
  exact ⟨_, rfl, by simp [parentPath], by simp [State.finalize, parentPath]⟩

/-- C6, witness for the amended theorem at the initial session state. -/
theorem pop_region_at_root_deferred_fatal_witness :
    (State.init 0).stack_frame = some [] ∧
    ∃ s', (State.init 0).pop_region 1 = .ok s' ∧ s'.stack_frame = none ∧
      ∃ msg, s'.finalize 2 = .error msg :=
  ⟨rfl, pop_region_at_root_deferred_fatal (State.init 0) 1 2 rfl⟩

/-- C5: in every session state whose cursor is a frame `p` of the tree,
`end_kernel` with a correlation token other than `p` aborts with the
diagnostic naming the frame that was expected to end (the cursor's full
path), and `end_kernel` with the token identifying `p` succeeds and
moves the cursor to the parent. -/
theorem end_kernel_token_check (s : State) (p tok : List Key) (t : ℚ)
    (h : s.stack_frame = some p) :
    (tok ≠ p → s.end_kernel tok t =
      .error ("Expected \"" ++ get_full_name s.stack_root p ++
        "\" to end, got different kernel ID")) ∧
    (tok = p → ∃ s', s.end_kernel tok t = .ok s' ∧
      s'.stack_frame = parentPath p) := by
  unfold State.end_kernel
  rw [h]
  constructor
  · intro hne
    simp [hne]
  · intro he
    subst he
    simp [State.end_frame, h]

/-- C5, witness: in a session with one open frame `("A", FOR)`, the
empty token aborts with the diagnostic, and the matching token pops
back to the root. -/
theorem end_kernel_token_check_witness :
    oneFrameState.stack_frame = some [(StackKind.STACK_FOR, "A")] ∧
    ([] ≠ [(StackKind.STACK_FOR, "A")] →
      oneFrameState.end_kernel [] 2 =
        .error ("Expected \"" ++
          get_full_name oneFrameState.stack_root [(StackKind.STACK_FOR, "A")] ++
          "\" to end, got different kernel ID")) ∧
    ([(StackKind.STACK_FOR, "A")] = [(StackKind.STACK_FOR, "A")] →
      ∃ s', oneFrameState.end_kernel [(StackKind.STACK_FOR, "A")] 2 = .ok s' ∧
        s'.stack_frame = parentPath [(StackKind.STACK_FOR, "A")]) :=
  ⟨rfl, (end_kernel_token_check oneFrameState _ [] 2 rfl).1,
    (end_kernel_token_check oneFrameState _ _ 2 rfl).2⟩

/-- C10: a deallocate succeeds exactly when some live record carries
the passed `(size, address)` pair — the name and the owning frame take
no part in the match (the result is identical for any name and frame),
while a wrong size at the right address finds nothing and is fatal. -/
theorem deallocate_key_matching (al : Allocations) (name name' : String)
    (ptr size : Nat) (frame frame' : Option (List Key)) (h : size < UINT64) :
    ((al.deallocate name ptr size frame).isOk = true ↔
      ∃ a ∈ al.alloc_set, a.size = size ∧ a.ptr = ptr) ∧
    al.deallocate name ptr size frame = al.deallocate name' ptr size frame' := by
  constructor
  · have : (al.deallocate name ptr size frame).isOk =
        (al.alloc_set.find? (fun a => a.size = size ∧ a.ptr = ptr)).isSome := by
      unfold Allocations.deallocate findAlloc
      rw [Nat.mod_eq_of_lt h]
      dsimp only
      split
      next x heq =>
        simp [heq, Except.isOk, Except.toBool]
        intro a ha hsz
        have hnone := List.find?_eq_none.mp heq a ha
        simp [hsz] at hnone
        exact hnone
      next x r heq =>
        simp [heq, Except.isOk, Except.toBool]
        exact ⟨r, List.mem_of_find?_eq_some heq,
          by simpa using List.find?_some heq⟩
    rw [this, List.find?_isSome]
    simp
  · rfl

/-- C10, witness: on a one-record ledger (size 1000 at address 7,
name `"buf"`), a deallocate under a different name succeeds and equals
the deallocate under any other name/frame, and the success criterion
is exactly the `(size, address)` match. -/
theorem deallocate_key_matching_witness :
    1000 < UINT64 ∧
    (((oneAllocLedger.deallocate "other" 7 1000 none).isOk = true ↔
      ∃ a ∈ oneAllocLedger.alloc_set, a.size = 1000 ∧ a.ptr = 7) ∧
     oneAllocLedger.deallocate "other" 7 1000 none =
       oneAllocLedger.deallocate "buf" 7 1000 (some [])) :=
  ⟨by norm_num [UINT64],
   deallocate_key_matching oneAllocLedger "other" "buf" 7 1000 none (some [])
     (by norm_num [UINT64])⟩

theorem treeSize_pos (t : StackNode) : 1 ≤ treeSize t := by
  cases t
  simp [treeSize]

theorem treeSizeList_append (a b : List StackNode) :
    treeSizeList (a ++ b) = treeSizeList a + treeSizeList b := by
  induction a with
  | nil => simp [treeSizeList]
  | cons x xs ih => simp [treeSizeList, ih]; ring

theorem treeSize_eq (t : StackNode) :
    treeSize t = 1 + treeSizeList t.children := by
  cases t
  simp [treeSize, StackNode.children]

theorem total_addChain (t : StackNode) (chain : List Key) (s : ℚ) (c : Int) :
    (addChain t chain s c).total_runtime = t.total_runtime + s := by
  cases chain <;> simp [addChain, StackNode.total_runtime]

theorem newNode_total (k : Key) : (newNode k).total_runtime = 0 := rfl

theorem updateFirst_total_sum (l : List StackNode) (k : Key)
    (f : StackNode → StackNode) (x : StackNode) (hx : findChild l k = some x) :
    ((updateFirst l k f).map StackNode.total_runtime).sum =
      (l.map StackNode.total_runtime).sum +
        ((f x).total_runtime - x.total_runtime) := by
  induction l with
  | nil => simp [findChild] at hx
  | cons y ys ih =>
      by_cases hy : (y.kind = k.1 ∧ y.name = k.2)
      · have : y = x := by
          simp [findChild, List.find?_cons, hy] at hx
          exact hx
        subst this
        simp [updateFirst, hy]
        ring
      · have hx' : findChild ys k = some x := by
          simpa [findChild, List.find?_cons, hy] using hx
        simp [updateFirst, hy, ih hx']
        ring

theorem insertNodeSorted_total_sum (l : List StackNode) (c : StackNode) :
    ((insertNodeSorted l c).map StackNode.total_runtime).sum =
      (l.map StackNode.total_runtime).sum + c.total_runtime := by
  induction l with
  | nil => simp [insertNodeSorted]
  | cons y ys ih =>
      by_cases h : nodeLt c y
      · simp [insertNodeSorted, h]
        ring
      · simp [insertNodeSorted, h, ih]
        ring

theorem childrenRuntimeSum_addChain (t : StackNode) (chain : List Key)
    (s : ℚ) (c : Int) (hne : chain ≠ []) :
    childrenRuntimeSum (addChain t chain s c) = childrenRuntimeSum t + s := by
  obtain ⟨nm, kd, cs, tr, mr, ar, cl, st⟩ := t
  cases chain with
  | nil => exact absurd rfl hne
  | cons k rest =>
      unfold addChain
      simp only [childrenRuntimeSum, StackNode.children]
      cases hf : findChild cs k with
      | some x =>
          simp only [hf]
          rw [updateFirst_total_sum cs k _ x hf, total_addChain]
          ring
      | none =>
          simp only [hf]
          rw [insertNodeSorted_total_sum, total_addChain, newNode_total]
          ring

theorem childrenRuntimeSum_foldl (pairs : List (StackNode × List Key))
    (acc : StackNode) (h : ∀ pr ∈ pairs, pr.2 ≠ []) :
    childrenRuntimeSum (pairs.foldl
        (fun a pr => addChain a pr.2 (selfTime pr.1) pr.1.number_of_calls) acc) =
      childrenRuntimeSum acc + (pairs.map (fun pr => selfTime pr.1)).sum := by
  induction pairs generalizing acc with
  | nil => simp
  | cons pr rest ih =>
      simp only [List.foldl_cons, List.map_cons, List.sum_cons]
      rw [ih _ (fun q hq => h q (List.mem_cons_of_mem _ hq)),
        childrenRuntimeSum_addChain _ _ _ _ (h pr (List.mem_cons_self _ _))]
      ring

theorem bfsPairs_chains_ne (fuel : Nat) (q : List (StackNode × List Key))
    (h : ∀ pr ∈ q, pr.2 ≠ []) : ∀ pr ∈ bfsPairs fuel q, pr.2 ≠ [] := by
  induction fuel generalizing q with
  | zero => cases q <;> simp [bfsPairs]
  | succ fuel ih =>
      cases q with
      | nil => simp [bfsPairs]
      | cons pr rest =>
          obtain ⟨t, chain⟩ := pr
          intro x hx
          simp only [bfsPairs, List.mem_cons] at hx
          rcases hx with hx | hx
          · subst hx
            exact h (t, chain) (List.mem_cons_self _ _)
          · refine ih _ ?_ x hx
            intro y hy
            rcases List.mem_append.mp hy with hy | hy
            · exact h y (List.mem_cons_of_mem _ hy)
            · obtain ⟨ch, _, rfl⟩ := List.mem_map.mp hy
              simp

theorem bfsPairs_selfTime_sum (fuel : Nat) (q : List (StackNode × List Key))
    (h : treeSizeList (q.map Prod.fst) ≤ fuel) :
    ((bfsPairs fuel q).map (fun pr => selfTime pr.1)).sum =
      (q.map (fun pr => pr.1.total_runtime)).sum := by
  induction fuel generalizing q with
  | zero =>
      cases q with
      | nil => simp [bfsPairs]
      | cons pr rest =>
          exfalso
          have h1 := treeSize_pos pr.1
          simp [treeSizeList] at h
          omega
  | succ fuel ih =>
      cases q with
      | nil => simp [bfsPairs]
      | cons pr rest =>
          obtain ⟨t, chain⟩ := pr
          simp only [bfsPairs, List.map_cons, List.sum_cons]
          rw [ih]
          · have hmap : ((rest ++ t.children.map fun ch => (ch, ch.key :: chain)).map
                (fun pr => pr.1.total_runtime)).sum =
                (rest.map (fun pr => pr.1.total_runtime)).sum +
                  (t.children.map StackNode.total_runtime).sum := by
              simp [List.map_map, Function.comp_def]
            rw [hmap]
            unfold selfTime childrenRuntimeSum
            ring
          · have : treeSizeList ((rest ++ t.children.map
                fun ch => (ch, ch.key :: chain)).map Prod.fst) =
                treeSizeList (rest.map Prod.fst) + treeSizeList t.children := by
              rw [List.map_append, treeSizeList_append]
              congr 1
              · simp [List.map_map, Function.comp_def]
            rw [this]
            have ht := treeSize_eq t
            simp only [List.map_cons, treeSizeList] at h
            omega

/-- Inversion conserves total time, unconditionally: the sum of
`total_runtime` over the inverted root's immediate children is the
original root's `total_runtime`. -/
theorem invert_childrenSum (t : StackNode) :
    childrenRuntimeSum t.invert = t.total_runtime := by
  unfold StackNode.invert
  rw [childrenRuntimeSum_foldl]
  · rw [bfsPairs_selfTime_sum]
    · simp [childrenRuntimeSum, StackNode.children]
    · simp [treeSizeList]
  · apply bfsPairs_chains_ne
    intro pr hpr
    simp at hpr
    simp [hpr]

/-- C2: for every finite tree whose durations are non-negative and in
which every node's `total_runtime` dominates the sum of its children's,
the sum of `total_runtime` over the immediate children of the tree
`invert()` returns equals `total_runtime` at the original root —
inversion neither creates nor loses time.  (The conservation in fact
holds for every tree; the hypotheses mirror the claim.) -/
theorem invert_conserves_total_time (t : StackNode)
    (hpos : ∀ n ∈ allNodes t, 0 ≤ n.total_runtime)
    (hdom : ∀ n ∈ allNodes t, childrenRuntimeSum n ≤ n.total_runtime) :
    childrenRuntimeSum t.invert = t.total_runtime :=
  invert_childrenSum t

/-- C2, witness: the conservation at a concrete well-formed tree. -/
theorem invert_conserves_total_time_witness :
    (∀ n ∈ allNodes invertSampleTree, 0 ≤ n.total_runtime) ∧
    (∀ n ∈ allNodes invertSampleTree, childrenRuntimeSum n ≤ n.total_runtime) ∧
    childrenRuntimeSum invertSampleTree.invert =
      invertSampleTree.total_runtime := by
  have hpos : ∀ n ∈ allNodes invertSampleTree, 0 ≤ n.total_runtime := by
    simp [invertSampleTree, allNodes, allNodesList, StackNode.total_runtime]
  have hdom : ∀ n ∈ allNodes invertSampleTree,
      childrenRuntimeSum n ≤ n.total_runtime := by
    simp [invertSampleTree, allNodes, allNodesList, childrenRuntimeSum,
      StackNode.total_runtime, StackNode.children]
    all_goals norm_num
  exact ⟨hpos, hdom, invert_conserves_total_time invertSampleTree hpos hdom⟩


theorem newNode_key (k : Key) :
    (newNode k).kind = k.1 ∧ (newNode k).name = k.2 :=
  ⟨rfl, rfl⟩

theorem findChild_nil (k : Key) : findChild [] k = none := rfl

theorem findChild_cons_pos (x : StackNode) (xs : List StackNode) (k : Key)
    (h : x.kind = k.1 ∧ x.name = k.2) : findChild (x :: xs) k = some x := by
  unfold findChild
  rw [List.find?_cons_of_pos]
  simpa using h

theorem findChild_cons_neg (x : StackNode) (xs : List StackNode) (k : Key)
    (h : ¬(x.kind = k.1 ∧ x.name = k.2)) :
    findChild (x :: xs) k = findChild xs k := by
  unfold findChild
  rw [List.find?_cons_of_neg]
  simpa using h

theorem findChild_key_of_some (l : List StackNode) (k : Key) (c : StackNode)
    (h : findChild l k = some c) : c.kind = k.1 ∧ c.name = k.2 := by
  have := List.find?_some h
  simpa using this

theorem key_eq_of_both {y : StackNode} {k k' : Key}
    (h : y.kind = k.1 ∧ y.name = k.2) (h' : y.kind = k'.1 ∧ y.name = k'.2) :
    k = k' := by
  obtain ⟨a, b⟩ := k
  obtain ⟨a', b'⟩ := k'
  simp only at h h'
  rw [← h.1, ← h.2, h'.1, h'.2]

theorem findChild_insertNodeSorted_of_ne (l : List StackNode) (c : StackNode)
    (k : Key) (hc : ¬(c.kind = k.1 ∧ c.name = k.2)) :
    findChild (insertNodeSorted l c) k = findChild l k := by
  induction l with
  | nil => simp [insertNodeSorted, findChild_cons_neg _ _ _ hc, findChild_nil]
  | cons x xs ih =>
      unfold insertNodeSorted
      by_cases hlt : nodeLt c x
      · rw [if_pos hlt, findChild_cons_neg _ _ _ hc]
      · rw [if_neg hlt]
        by_cases hx : (x.kind = k.1 ∧ x.name = k.2)
        · rw [findChild_cons_pos _ _ _ hx, findChild_cons_pos _ _ _ hx]
        · rw [findChild_cons_neg _ _ _ hx, findChild_cons_neg _ _ _ hx, ih]

theorem findChild_insertNodeSorted_self (l : List StackNode) (c : StackNode)
    (k : Key) (hnone : findChild l k = none)
    (hc : c.kind = k.1 ∧ c.name = k.2) :
    findChild (insertNodeSorted l c) k = some c := by
  induction l with
  | nil => simp [insertNodeSorted, findChild_cons_pos _ _ _ hc]
  | cons x xs ih =>
      have hx : ¬(x.kind = k.1 ∧ x.name = k.2) := by
        intro hx
        rw [findChild_cons_pos _ _ _ hx] at hnone
        exact Option.noConfusion hnone
      have hxs : findChild xs k = none := by
        rwa [findChild_cons_neg _ _ _ hx] at hnone
      unfold insertNodeSorted
      by_cases hlt : nodeLt c x
      · rw [if_pos hlt, findChild_cons_pos _ _ _ hc]
      · rw [if_neg hlt, findChild_cons_neg _ _ _ hx]
        exact ih hxs

theorem findChild_ensureChild_self (l : List StackNode) (k : Key) :
    ∃ c, findChild (ensureChild l k) k = some c ∧
      c.kind = k.1 ∧ c.name = k.2 := by
  unfold ensureChild
  cases hf : findChild l k with
  | some c => exact ⟨c, by simp [hf], findChild_key_of_some l k c hf⟩
  | none =>
      exact ⟨newNode k,
        findChild_insertNodeSorted_self l (newNode k) k hf (newNode_key k),
        newNode_key k⟩

theorem findChild_ensureChild_pres (l : List StackNode) (k k' : Key)
    (c : StackNode) (hc : findChild l k' = some c) :
    findChild (ensureChild l k) k' = some c := by
  unfold ensureChild
  cases hf : findChild l k with
  | some _ => exact hc
  | none =>
      rw [findChild_insertNodeSorted_of_ne _ _ _ ?_]
      · exact hc
      · intro hkey
        have hk : k = k' := key_eq_of_both (newNode_key k) hkey
        rw [hk, hc] at hf
        exact Option.noConfusion hf

theorem findChild_updateFirst_self (l : List StackNode) (k : Key)
    (f : StackNode → StackNode)
    (hf : ∀ y, (f y).kind = y.kind ∧ (f y).name = y.name)
    (x : StackNode) (hx : findChild l k = some x) :
    findChild (updateFirst l k f) k = some (f x) := by
  induction l with
  | nil => rw [findChild_nil] at hx; exact Option.noConfusion hx
  | cons y ys ih =>
      by_cases hy : (y.kind = k.1 ∧ y.name = k.2)
      · have hxy : y = x := by
          rw [findChild_cons_pos _ _ _ hy] at hx
          exact Option.some.inj hx
        subst hxy
        have hfy : ((f y).kind = k.1 ∧ (f y).name = k.2) :=
          ⟨(hf y).1.trans hy.1, (hf y).2.trans hy.2⟩
        unfold updateFirst
        rw [if_pos hy, findChild_cons_pos _ _ _ hfy]
      · have hx' : findChild ys k = some x := by
          rwa [findChild_cons_neg _ _ _ hy] at hx
        unfold updateFirst
        rw [if_neg hy, findChild_cons_neg _ _ _ hy]
        exact ih hx'

theorem findChild_updateFirst_other (l : List StackNode) (k k' : Key)
    (f : StackNode → StackNode)
    (hf : ∀ y, (f y).kind = y.kind ∧ (f y).name = y.name)
    (hne : k ≠ k') :
    findChild (updateFirst l k f) k' = findChild l k' := by
  induction l with
  | nil => simp [updateFirst]
  | cons y ys ih =>
      by_cases hy : (y.kind = k.1 ∧ y.name = k.2)
      · have hy' : ¬(y.kind = k'.1 ∧ y.name = k'.2) := by
          intro hy'
          exact hne (key_eq_of_both hy hy')
        have hfy' : ¬((f y).kind = k'.1 ∧ (f y).name = k'.2) := by
          intro hc
          exact hy' ⟨((hf y).1).symm.trans hc.1, ((hf y).2).symm.trans hc.2⟩
        unfold updateFirst
        rw [if_pos hy, findChild_cons_neg _ _ _ hfy', findChild_cons_neg _ _ _ hy']
      · unfold updateFirst
        rw [if_neg hy]
        by_cases hy' : (y.kind = k'.1 ∧ y.name = k'.2)
        · rw [findChild_cons_pos _ _ _ hy', findChild_cons_pos _ _ _ hy']
        · rw [findChild_cons_neg _ _ _ hy', findChild_cons_neg _ _ _ hy', ih]

theorem updateAt_keeps_key (t : StackNode) (p : List Key)
    (F : StackNode → StackNode)
    (hF : ∀ nd, (F nd).kind = nd.kind ∧ (F nd).name = nd.name) :
    (updateAt t p F).kind = t.kind ∧ (updateAt t p F).name = t.name := by
  cases p with
  | nil => exact hF t
  | cons k ks => exact ⟨rfl, rfl⟩

theorem lookupAt_updateAt (p : List Key) (t : StackNode)
    (F : StackNode → StackNode)
    (hF : ∀ nd, (F nd).kind = nd.kind ∧ (F nd).name = nd.name)
    (nd : StackNode) (h : lookupAt t p = some nd) :
    lookupAt (updateAt t p F) p = some (F nd) := by
  induction p generalizing t with
  | nil =>
      simp [lookupAt] at h
      simp [lookupAt, updateAt, h]
  | cons k ks ih =>
      obtain ⟨nm, kd, cs, tr, mr, ar, cl, st⟩ := t
      simp only [lookupAt, StackNode.children] at h
      cases hf : findChild cs k with
      | none =>
          simp only [hf] at h
          exact Option.noConfusion h
      | some c =>
          simp only [hf] at h
          simp only [updateAt, lookupAt, StackNode.children]
          rw [findChild_updateFirst_self cs k _
            (fun y => updateAt_keeps_key y ks F hF) c hf]
          exact ih c h

theorem lookupAt_append (p r : List Key) (t : StackNode) :
    lookupAt t (p ++ r) = (lookupAt t p).bind (fun nd => lookupAt nd r) := by
  induction p generalizing t with
  | nil => simp [lookupAt]
  | cons k ks ih =>
      cases hf : findChild t.children k with
      | none => simp [lookupAt, hf]
      | some c => simp [lookupAt, hf, ih c]

theorem updateFirst_cons_pos (x : StackNode) (xs : List StackNode) (k : Key)
    (f : StackNode → StackNode) (h : x.kind = k.1 ∧ x.name = k.2) :
    updateFirst (x :: xs) k f = f x :: xs := by
  simp only [updateFirst]
  rw [if_pos h]

theorem updateFirst_cons_neg (x : StackNode) (xs : List StackNode) (k : Key)
    (f : StackNode → StackNode) (h : ¬(x.kind = k.1 ∧ x.name = k.2)) :
    updateFirst (x :: xs) k f = x :: updateFirst xs k f := by
  simp only [updateFirst]
  rw [if_neg h]

theorem updateFirst_twice (l : List StackNode) (k : Key)
    (g : StackNode → StackNode)
    (hg : ∀ y, (g y).kind = y.kind ∧ (g y).name = y.name) :
    updateFirst (updateFirst l k g) k g = updateFirst l k (fun y => g (g y)) := by
  induction l with
  | nil => rfl
  | cons y ys ih =>
      by_cases hy : (y.kind = k.1 ∧ y.name = k.2)
      · have hgy : ((g y).kind = k.1 ∧ (g y).name = k.2) :=
          ⟨(hg y).1.trans hy.1, (hg y).2.trans hy.2⟩
        rw [updateFirst_cons_pos _ _ _ _ hy, updateFirst_cons_pos _ _ _ _ hgy,
          updateFirst_cons_pos _ _ _ _ hy]
      · rw [updateFirst_cons_neg _ _ _ _ hy, updateFirst_cons_neg _ _ _ _ hy,
          updateFirst_cons_neg _ _ _ _ hy, ih]

theorem updateAt_idem (p : List Key) (t : StackNode)
    (F : StackNode → StackNode)
    (hFF : ∀ nd, F (F nd) = F nd)
    (hF : ∀ nd, (F nd).kind = nd.kind ∧ (F nd).name = nd.name) :
    updateAt (updateAt t p F) p F = updateAt t p F := by
  induction p generalizing t with
  | nil => simp [updateAt, hFF]
  | cons k ks ih =>
      obtain ⟨nm, kd, cs, tr, mr, ar, cl, st⟩ := t
      simp only [updateAt, StackNode.children, StackNode.name, StackNode.kind,
        StackNode.total_runtime, StackNode.max_runtime, StackNode.avg_runtime,
        StackNode.number_of_calls, StackNode.start_time]
      rw [updateFirst_twice _ _ _ (fun y => updateAt_keeps_key y ks F hF)]
      have hfun : (fun y => updateAt (updateAt y ks F) ks F) =
          fun c => updateAt c ks F := by
        funext y
        exact ih y
      rw [hfun]

theorem ensureChild_idem (l : List StackNode) (k : Key) :
    ensureChild (ensureChild l k) k = ensureChild l k := by
  obtain ⟨c, hc, _⟩ := findChild_ensureChild_self l k
  show (match findChild (ensureChild l k) k with
        | some _ => ensureChild l k
        | none => insertNodeSorted (ensureChild l k) (newNode k)) =
      ensureChild l k
  rw [hc]

theorem sameFrameFields_refl (a : StackNode) : sameFrameFields a a :=
  ⟨rfl, rfl, rfl, rfl, rfl, rfl, rfl⟩

theorem sameFrameFields_trans {a b c : StackNode}
    (h1 : sameFrameFields a b) (h2 : sameFrameFields b c) :
    sameFrameFields a c := by
  obtain ⟨a1, a2, a3, a4, a5, a6, a7⟩ := h1
  obtain ⟨b1, b2, b3, b4, b5, b6, b7⟩ := h2
  exact ⟨a1.trans b1, a2.trans b2, a3.trans b3, a4.trans b4, a5.trans b5,
    a6.trans b6, a7.trans b7⟩

theorem ensureHere_keeps_key (k : Key) (nd : StackNode) :
    (ensureHere k nd).kind = nd.kind ∧ (ensureHere k nd).name = nd.name := by
  cases nd
  exact ⟨rfl, rfl⟩

theorem ensureHere_children (k : Key) (nd : StackNode) :
    (ensureHere k nd).children = ensureChild nd.children k := by
  cases nd
  rfl

theorem ensureHere_same (k : Key) (nd : StackNode) :
    sameFrameFields nd (ensureHere k nd) := by
  cases nd
  exact ⟨rfl, rfl, rfl, rfl, rfl, rfl, rfl⟩

theorem ensureHere_idem (k : Key) (nd : StackNode) :
    ensureHere k (ensureHere k nd) = ensureHere k nd := by
  obtain ⟨nm, kd, cs, tr, mr, ar, cl, st⟩ := nd
  simp only [ensureHere]
  rw [ensureChild_idem]

theorem sameFrameFields_ensureAt (t : StackNode) (q : List Key) (k : Key) :
    sameFrameFields t (ensureAt t q k) := by
  cases q with
  | nil => exact ensureHere_same k t
  | cons k' ks => exact ⟨rfl, rfl, rfl, rfl, rfl, rfl, rfl⟩

theorem lookupAt_ensureAt_pres (r : List Key) :
    ∀ (t : StackNode) (q : List Key) (k : Key) (c : StackNode),
      lookupAt t r = some c →
      ∃ c', lookupAt (ensureAt t q k) r = some c' ∧ sameFrameFields c c' := by
  induction r with
  | nil =>
      intro t q k c h
      simp only [lookupAt, Option.some.injEq] at h
      subst h
      exact ⟨ensureAt t q k, rfl, sameFrameFields_ensureAt t q k⟩
  | cons kr r' ih =>
      intro t q k c h
      obtain ⟨nm, kd, cs, tr, mr, ar, cl, st⟩ := t
      simp only [lookupAt, StackNode.children] at h
      cases hf : findChild cs kr with
      | none =>
          simp only [hf] at h
          exact Option.noConfusion h
      | some c1 =>
          simp only [hf] at h
          cases q with
          | nil =>
              refine ⟨c, ?_, sameFrameFields_refl c⟩
              show lookupAt (ensureHere k (.mk nm kd cs tr mr ar cl st))
                (kr :: r') = some c
              simp only [ensureHere, lookupAt, StackNode.children]
              rw [findChild_ensureChild_pres cs k kr c1 hf]
              exact h
          | cons kq q' =>
              by_cases hkq : kq = kr
              · subst hkq
                obtain ⟨c', hc', hs⟩ := ih c1 q' k c h
                refine ⟨c', ?_, hs⟩
                simp only [ensureAt, updateAt, lookupAt, StackNode.children]
                rw [findChild_updateFirst_self cs kq
                  (fun ch => updateAt ch q' (ensureHere k))
                  (fun y => updateAt_keeps_key y q' (ensureHere k)
                    (ensureHere_keeps_key k)) c1 hf]
                exact hc'
              · refine ⟨c, ?_, sameFrameFields_refl c⟩
                simp only [ensureAt, updateAt, lookupAt, StackNode.children]
                rw [findChild_updateFirst_other cs kq kr
                  (fun ch => updateAt ch q' (ensureHere k))
                  (fun y => updateAt_keeps_key y q' (ensureHere k)
                    (ensureHere_keeps_key k)) hkq, hf]
                exact h

theorem lookupAt_applyEnsures_pres (ops : List (List Key × Key)) :
    ∀ (t : StackNode) (r : List Key) (c : StackNode),
      lookupAt t r = some c →
      ∃ c', lookupAt (applyEnsures t ops) r = some c' ∧ sameFrameFields c c' := by
  induction ops with
  | nil =>
      intro t r c h
      exact ⟨c, h, sameFrameFields_refl c⟩
  | cons op rest ih =>
      intro t r c h
      obtain ⟨c1, h1, s1⟩ := lookupAt_ensureAt_pres r t op.1 op.2 c h
      obtain ⟨c', h', s'⟩ := ih (ensureAt t op.1 op.2) r c1 h1
      exact ⟨c', by simpa [applyEnsures] using h', sameFrameFields_trans s1 s'⟩

/-- C8: child lookup is idempotent and stable.  Two `get_child` calls
with the same `(kind, name)` under the same parent return the same
frame (the second is a no-op); the created frame sits at the parent's
path extended by its key, carrying that kind and name; and after any
further sequence of find-or-create insertions anywhere in the tree,
the frame is still at that same path with all its per-frame fields
unchanged. -/
theorem get_or_create_child_stable (t : StackNode) (p : List Key) (k : Key)
    (h : (lookupAt t p).isSome) :
    (∀ (t0 : StackNode) (nm : String) (kd : StackKind),
      (t0.get_child nm kd).2.get_child nm kd = t0.get_child nm kd) ∧
    ensureAt (ensureAt t p k) p k = ensureAt t p k ∧
    (∃ c, lookupAt (ensureAt t p k) (p ++ [k]) = some c ∧
      c.kind = k.1 ∧ c.name = k.2) ∧
    (∀ ops c, lookupAt (ensureAt t p k) (p ++ [k]) = some c →
      ∃ c', lookupAt (applyEnsures (ensureAt t p k) ops) (p ++ [k]) = some c' ∧
        sameFrameFields c c') := by
  refine ⟨?_, ?_, ?_, ?_⟩
  · intro t0 nm kd
    obtain ⟨n0, k0, cs0, tr0, mr0, ar0, cl0, st0⟩ := t0
    unfold StackNode.get_child
    simp only [StackNode.children]
    cases hf : findChild cs0 (kd, nm) with
    | some c => simp [hf]
    | none =>
        have hfind : findChild
            (insertNodeSorted cs0 (newNode (kd, nm))) (kd, nm) =
              some (newNode (kd, nm)) :=
          findChild_insertNodeSorted_self _ _ _ hf (newNode_key _)
        simp [hf, StackNode.name, StackNode.kind, StackNode.total_runtime,
          StackNode.max_runtime, StackNode.avg_runtime,
          StackNode.number_of_calls, StackNode.start_time,
          StackNode.children, hfind]
  · unfold ensureAt
    exact updateAt_idem p t (ensureHere k) (ensureHere_idem k)
      (ensureHere_keeps_key k)
  · obtain ⟨nd, hnd⟩ := Option.isSome_iff_exists.mp h
    have h1 := lookupAt_updateAt p t (ensureHere k)
      (ensureHere_keeps_key k) nd hnd
    obtain ⟨c, hc, hk⟩ := findChild_ensureChild_self nd.children k
    refine ⟨c, ?_, hk⟩
    unfold ensureAt
    rw [lookupAt_append, h1]
    simp only [Option.some_bind, lookupAt, ensureHere_children]
    rw [hc]
  · intro ops c hc
    exact lookupAt_applyEnsures_pres ops _ _ c hc

/-- C8, witness: the stability conjunction at the bare root with child
key `(REGION, "w")`, with one later insertion elsewhere. -/
theorem get_or_create_child_stable_witness :
    (lookupAt (StackNode.mk "" .STACK_REGION [] 0 0 0 0 0) []).isSome ∧
    ((∀ (t0 : StackNode) (nm : String) (kd : StackKind),
      (t0.get_child nm kd).2.get_child nm kd = t0.get_child nm kd) ∧
    ensureAt (ensureAt (StackNode.mk "" .STACK_REGION [] 0 0 0 0 0) []
        (.STACK_REGION, "w")) [] (.STACK_REGION, "w") =
      ensureAt (StackNode.mk "" .STACK_REGION [] 0 0 0 0 0) []
        (.STACK_REGION, "w") ∧
    (∃ c, lookupAt (ensureAt (StackNode.mk "" .STACK_REGION [] 0 0 0 0 0) []
        (.STACK_REGION, "w")) ([] ++ [(.STACK_REGION, "w")]) = some c ∧
      c.kind = StackKind.STACK_REGION ∧ c.name = "w") ∧
    (∀ ops c, lookupAt (ensureAt (StackNode.mk "" .STACK_REGION [] 0 0 0 0 0) []
        (.STACK_REGION, "w")) ([] ++ [(.STACK_REGION, "w")]) = some c →
      ∃ c', lookupAt (applyEnsures (ensureAt
          (StackNode.mk "" .STACK_REGION [] 0 0 0 0 0) []
          (.STACK_REGION, "w")) ops) ([] ++ [(.STACK_REGION, "w")]) = some c' ∧
        sameFrameFields c c')) :=
  ⟨rfl, get_or_create_child_stable (StackNode.mk "" .STACK_REGION [] 0 0 0 0 0)
    [] (.STACK_REGION, "w") rfl⟩

theorem findAlloc_cons_pos (x : Allocation) (xs : List Allocation)
    (sz ptr : Nat) (h : x.size = sz ∧ x.ptr = ptr) :
    findAlloc (x :: xs) sz ptr = some x := by
  unfold findAlloc
  rw [List.find?_cons_of_pos]
  simpa using h

theorem findAlloc_cons_neg (x : Allocation) (xs : List Allocation)
    (sz ptr : Nat) (h : ¬(x.size = sz ∧ x.ptr = ptr)) :
    findAlloc (x :: xs) sz ptr = findAlloc xs sz ptr := by
  unfold findAlloc
  rw [List.find?_cons_of_neg]
  simpa using h

theorem sumSizes_insertAllocSorted (l : List Allocation) (a : Allocation) :
    sumSizes (insertAllocSorted l a) = sumSizes l + a.size := by
  induction l with
  | nil => simp [insertAllocSorted, sumSizes]
  | cons x xs ih =>
      unfold insertAllocSorted
      by_cases h : allocLt a x
      · rw [if_pos h]
        simp [sumSizes]
        omega
      · rw [if_neg h]
        simp [sumSizes] at ih ⊢
        omega

theorem mem_insertAllocSorted (l : List Allocation) (a x : Allocation)
    (hx : x ∈ insertAllocSorted l a) : x = a ∨ x ∈ l := by
  induction l with
  | nil => simpa [insertAllocSorted] using hx
  | cons y ys ih =>
      unfold insertAllocSorted at hx
      by_cases h : allocLt a y
      · rw [if_pos h] at hx
        rcases List.mem_cons.mp hx with h1 | h1
        · exact Or.inl h1
        · exact Or.inr h1
      · rw [if_neg h] at hx
        rcases List.mem_cons.mp hx with h1 | h1
        · exact Or.inr (h1 ▸ List.mem_cons_self _ _)
        · rcases ih h1 with h2 | h2
          · exact Or.inl h2
          · exact Or.inr (List.mem_cons_of_mem _ h2)

theorem removeAlloc_sum (l : List Allocation) (sz ptr : Nat) (r : Allocation)
    (h : findAlloc l sz ptr = some r) :
    r.size ≤ sumSizes l ∧
      sumSizes (removeAlloc l sz ptr) = sumSizes l - r.size := by
  induction l with
  | nil => simp [findAlloc] at h
  | cons x xs ih =>
      by_cases hx : (x.size = sz ∧ x.ptr = ptr)
      · have hxr : x = r := by
          rw [findAlloc_cons_pos _ _ _ _ hx] at h
          exact Option.some.inj h
        subst hxr
        unfold removeAlloc
        rw [if_pos hx]
        simp only [sumSizes, List.map_cons, List.sum_cons]
        omega
      · rw [findAlloc_cons_neg _ _ _ _ hx] at h
        obtain ⟨h1, h2⟩ := ih h
        unfold removeAlloc
        rw [if_neg hx]
        simp only [sumSizes, List.map_cons, List.sum_cons] at h1 h2 ⊢
        omega

theorem mem_removeAlloc (l : List Allocation) (sz ptr : Nat) (x : Allocation)
    (hx : x ∈ removeAlloc l sz ptr) : x ∈ l := by
  induction l with
  | nil => simp [removeAlloc] at hx
  | cons y ys ih =>
      unfold removeAlloc at hx
      by_cases h : (y.size = sz ∧ y.ptr = ptr)
      · rw [if_pos h] at hx
        exact List.mem_cons_of_mem _ hx
      · rw [if_neg h] at hx
        rcases List.mem_cons.mp hx with h1 | h1
        · exact h1 ▸ List.mem_cons_self _ _
        · exact List.mem_cons_of_mem _ (ih h1)

theorem findAlloc_mem (l : List Allocation) (sz ptr : Nat) (r : Allocation)
    (h : findAlloc l sz ptr = some r) : r ∈ l :=
  List.mem_of_find?_eq_some h

theorem UINT64_pos : 0 < UINT64 := by norm_num [UINT64]

theorem stepMem_ledger (s s' : State) (e : MemEvent)
    (hstep : stepMem s e = .ok s') (hinv : LedgerInv s)
    (hbound : ∀ sp, sumSizes (s.current_allocations sp).alloc_set +
      allocSizesSum [e] < UINT64) :
    LedgerInv s' ∧
    (∀ sp, (s'.hwm_allocations sp).total_size =
      max ((s.hwm_allocations sp).total_size)
        ((s'.current_allocations sp).total_size)) ∧
    (∀ sp, sumSizes (s'.current_allocations sp).alloc_set ≤
      sumSizes (s.current_allocations sp).alloc_set + allocSizesSum [e]) ∧
    (e.isDealloc = true → s'.hwm_allocations = s.hwm_allocations) := by
  cases e with
  | alloc sp0 n p z =>
      simp only [stepMem, State.allocate] at hstep
      cases hal : (s.current_allocations sp0).allocate n p z s.stack_frame with
      | error msg =>
          rw [hal] at hstep
          exact Except.noConfusion hstep
      | ok cur =>
          rw [hal] at hstep
          simp only [Except.ok.injEq] at hstep
          subst hstep
          unfold Allocations.allocate at hal
          dsimp only at hal
          cases hff : findAlloc (s.current_allocations sp0).alloc_set
              (z % UINT64) p with
          | some _ =>
              rw [hff] at hal
              exact Except.noConfusion hal
          | none =>
              rw [hff] at hal
              simp only [Except.ok.injEq] at hal
              subst hal
              obtain ⟨ha, hb, hc⟩ := hinv sp0
              have hz : z % UINT64 < UINT64 := Nat.mod_lt _ UINT64_pos
              have hbnd := hbound sp0
              simp only [allocSizesSum, Nat.add_zero] at hbnd
              have hmod : ((s.current_allocations sp0).total_size + z % UINT64) %
                  UINT64 =
                  (s.current_allocations sp0).total_size + z % UINT64 :=
                Nat.mod_eq_of_lt (by omega)
              have hwm2 : ∀ sp,
                  (({ s with
                      current_allocations := fun sp_1 =>
                        if sp_1 = sp0 then
                          ⟨((s.current_allocations sp0).total_size + z % UINT64) %
                              UINT64,
                            insertAllocSorted
                              (s.current_allocations sp0).alloc_set
                              ⟨n, p, z % UINT64, s.stack_frame⟩⟩
                        else s.current_allocations sp_1
                      hwm_allocations :=
                        if (⟨((s.current_allocations sp0).total_size +
                              z % UINT64) % UINT64,
                            insertAllocSorted
                              (s.current_allocations sp0).alloc_set
                              ⟨n, p, z % UINT64, s.stack_frame⟩⟩ :
                              Allocations).total_size >
                            (s.hwm_allocations sp0).total_size then
                          fun sp_1 =>
                            if sp_1 = sp0 then
                              ⟨((s.current_allocations sp0).total_size +
                                  z % UINT64) % UINT64,
                                insertAllocSorted
                                  (s.current_allocations sp0).alloc_set
                                  ⟨n, p, z % UINT64, s.stack_frame⟩⟩
                            else s.hwm_allocations sp_1
                        else s.hwm_allocations } :
                    State).hwm_allocations sp).total_size =
                  max ((s.hwm_allocations sp).total_size)
                    ((((fun sp_1 =>
                        if sp_1 = sp0 then
                          (⟨((s.current_allocations sp0).total_size +
                              z % UINT64) % UINT64,
                            insertAllocSorted
                              (s.current_allocations sp0).alloc_set
                              ⟨n, p, z % UINT64, s.stack_frame⟩⟩ :
                            Allocations)
                        else s.current_allocations sp_1) : Space → Allocations)
                      sp).total_size) := by
                intro sp
                by_cases hgt : ((s.current_allocations sp0).total_size +
                      z % UINT64) % UINT64 >
                    (s.hwm_allocations sp0).total_size
                · simp only [if_pos hgt]
                  by_cases hsp : sp = sp0
                  · subst hsp
                    rw [if_pos rfl, if_pos rfl]
                    exact (Nat.max_eq_right (Nat.le_of_lt hgt)).symm
                  · rw [if_neg hsp, if_neg hsp]
                    exact (Nat.max_eq_left (hinv sp).2.1).symm
                · simp only [if_neg hgt]
                  by_cases hsp : sp = sp0
                  · subst hsp
                    rw [if_pos rfl]
                    exact (Nat.max_eq_left (Nat.le_of_not_lt hgt)).symm
                  · rw [if_neg hsp]
                    exact (Nat.max_eq_left (hinv sp).2.1).symm
              refine ⟨?_, hwm2, ?_, ?_⟩
              · intro sp
                refine ⟨?_, ?_, ?_⟩
                · by_cases hsp : sp = sp0
                  · subst hsp
                    simp [sumSizes_insertAllocSorted]
                    unfold UINT64 at *
                    omega
                  · simp [hsp]
                    exact (hinv sp).1
                · rw [hwm2 sp]
                  exact Nat.le_max_right _ _
                · by_cases hsp : sp = sp0
                  · subst hsp
                    intro a hmem
                    simp at hmem
                    rcases mem_insertAllocSorted _ _ _ hmem with h1 | h1
                    · subst h1
                      exact hz
                    · exact hc a h1
                  · intro a hmem
                    simp [hsp] at hmem
                    exact (hinv sp).2.2 a hmem
              · intro sp
                by_cases hsp : sp = sp0
                · subst hsp
                  simp [sumSizes_insertAllocSorted, allocSizesSum]
                · simp [hsp, allocSizesSum]
              · intro hde
                simp [MemEvent.isDealloc] at hde
  | dealloc sp0 n p z =>
      simp only [stepMem, State.deallocate] at hstep
      cases hal : (s.current_allocations sp0).deallocate n p z s.stack_frame with
      | error msg =>
          rw [hal] at hstep
          exact Except.noConfusion hstep
      | ok cur =>
          rw [hal] at hstep
          simp only [Except.ok.injEq] at hstep
          subst hstep
          unfold Allocations.deallocate at hal
          dsimp only at hal
          cases hff : findAlloc (s.current_allocations sp0).alloc_set
              (z % UINT64) p with
          | none =>
              rw [hff] at hal
              exact Except.noConfusion hal
          | some r =>
              rw [hff] at hal
              simp only [Except.ok.injEq] at hal
              subst hal
              obtain ⟨ha, hb, hc⟩ := hinv sp0
              have hrmem := findAlloc_mem _ _ _ _ hff
              have hrsz : r.size < UINT64 := hc r hrmem
              obtain ⟨hrle, hsum⟩ := removeAlloc_sum _ _ _ _ hff
              have hbnd := hbound sp0
              simp only [allocSizesSum] at hbnd
              have hmod : ((s.current_allocations sp0).total_size + UINT64 -
                  r.size) % UINT64 =
                  (s.current_allocations sp0).total_size - r.size := by
                have h1 : (s.current_allocations sp0).total_size + UINT64 -
                    r.size =
                    ((s.current_allocations sp0).total_size - r.size) +
                      UINT64 := by
                  omega
                rw [h1, Nat.add_mod_right]
                exact Nat.mod_eq_of_lt (by omega)
              have hwm2 : ∀ sp,
                  ((s.hwm_allocations) sp).total_size =
                  max ((s.hwm_allocations sp).total_size)
                    ((((fun sp_1 =>
                        if sp_1 = sp0 then
                          (⟨((s.current_allocations sp0).total_size + UINT64 -
                              r.size) % UINT64,
                            removeAlloc (s.current_allocations sp0).alloc_set
                              (z % UINT64) p⟩ : Allocations)
                        else s.current_allocations sp_1) : Space → Allocations)
                      sp).total_size) := by
                intro sp
                dsimp only
                by_cases hsp : sp = sp0
                · subst hsp
                  rw [if_pos rfl]
                  refine (Nat.max_eq_left ?_).symm
                  show ((s.current_allocations sp).total_size + UINT64 -
                    r.size) % UINT64 ≤ (s.hwm_allocations sp).total_size
                  rw [hmod]
                  omega
                · rw [if_neg hsp]
                  exact (Nat.max_eq_left (hinv sp).2.1).symm
              refine ⟨?_, hwm2, ?_, ?_⟩
              · intro sp
                refine ⟨?_, ?_, ?_⟩
                · by_cases hsp : sp = sp0
                  · subst hsp
                    simp [hsum]
                    unfold UINT64 at *
                    omega
                  · simp [hsp]
                    exact (hinv sp).1
                · rw [hwm2 sp]
                  exact Nat.le_max_right _ _
                · by_cases hsp : sp = sp0
                  · subst hsp
                    intro a hmem
                    simp at hmem
                    exact hc a (mem_removeAlloc _ _ _ _ hmem)
                  · intro a hmem
                    simp [hsp] at hmem
                    exact (hinv sp).2.2 a hmem
              · intro sp
                by_cases hsp : sp = sp0
                · subst hsp
                  simp [hsum, allocSizesSum]
                · simp [hsp, allocSizesSum]
              · intro _
                rfl

theorem allocSizesSum_cons (e : MemEvent) (rest : List MemEvent) :
    allocSizesSum (e :: rest) = allocSizesSum [e] + allocSizesSum rest := by
  cases e <;> simp [allocSizesSum]

theorem runMem_ledger (evts : List MemEvent) :
    ∀ s s', runMem s evts = .ok s' → LedgerInv s →
    (∀ sp, sumSizes (s.current_allocations sp).alloc_set +
      allocSizesSum evts < UINT64) →
    LedgerInv s' ∧
    ∀ sp, (s'.hwm_allocations sp).total_size =
      (traceTotals sp s evts).foldl max ((s.hwm_allocations sp).total_size) := by
  induction evts with
  | nil =>
      intro s s' hrun hinv hbound
      simp only [runMem, Except.ok.injEq] at hrun
      subst hrun
      exact ⟨hinv, fun sp => by simp [traceTotals]⟩
  | cons e rest ih =>
      intro s s' hrun hinv hbound
      simp only [runMem] at hrun
      cases hstep : stepMem s e with
      | error msg =>
          rw [hstep] at hrun
          exact Except.noConfusion hrun
      | ok s1 =>
          rw [hstep] at hrun
          have hb1 : ∀ sp, sumSizes (s.current_allocations sp).alloc_set +
              allocSizesSum [e] < UINT64 := by
            intro sp
            have h2 := hbound sp
            rw [allocSizesSum_cons] at h2
            omega
          obtain ⟨hinv1, hmax1, hle1, _⟩ := stepMem_ledger s s1 e hstep hinv hb1
          have hb2 : ∀ sp, sumSizes (s1.current_allocations sp).alloc_set +
              allocSizesSum rest < UINT64 := by
            intro sp
            have h1 := hle1 sp
            have h2 := hbound sp
            rw [allocSizesSum_cons] at h2
            omega
          obtain ⟨hinv', htr⟩ := ih s1 s' hrun hinv1 hb2
          refine ⟨hinv', fun sp => ?_⟩
          rw [htr sp]
          simp only [traceTotals, hstep, List.foldl_cons]
          congr 1
          rw [hmax1 sp]

theorem runMem_append (a b : List MemEvent) :
    ∀ s, runMem s (a ++ b) =
      match runMem s a with
      | .error msg => .error msg
      | .ok s1 => runMem s1 b := by
  induction a with
  | nil => intro s; simp [runMem]
  | cons e rest ih =>
      intro s
      simp only [List.cons_append, runMem]
      cases stepMem s e <;> simp [ih]

theorem deallocate_keeps_snapshot (s s' : State) (sp : Space) (n : String)
    (p z : Nat) (h : s.deallocate sp n p z = .ok s') :
    s'.hwm_allocations = s.hwm_allocations := by
  unfold State.deallocate at h
  cases hal : (s.current_allocations sp).deallocate n p z s.stack_frame with
  | error msg =>
      rw [hal] at h
      exact Except.noConfusion h
  | ok cur =>
      rw [hal] at h
      simp only [Except.ok.injEq] at h
      subst h
      rfl

/-- C3: for every allocate/deallocate event sequence accepted by the
session (no allocate repeats a live `(size, address)` key, every
deallocate names a live key — exactly the runs on which `runMem`
succeeds), with sizes totalling within `uint64` range: the current
ledger's `total_bytes` equals the sum of its live record sizes, the
stored high-water snapshot's `total_bytes` equals the maximum
`total_bytes` ever observed during the run, and a run ending in a
deallocate has the same snapshots as the run without it (a deallocate
never changes the snapshot). -/
theorem allocation_ledger_invariant (evts : List MemEvent) (s : State)
    (h1 : runMem (State.init 0) evts = .ok s)
    (h2 : allocSizesSum evts < UINT64) :
    (∀ sp, (s.current_allocations sp).total_size =
      sumSizes (s.current_allocations sp).alloc_set) ∧
    (∀ sp, (s.hwm_allocations sp).total_size =
      maxTotalObserved sp (State.init 0) evts) ∧
    (∀ pre e', evts = pre ++ [e'] → e'.isDealloc = true →
      ∃ s0, runMem (State.init 0) pre = .ok s0 ∧
        s.hwm_allocations = s0.hwm_allocations) := by
  have hinv0 : LedgerInv (State.init 0) := by
    intro sp
    refine ⟨rfl, le_refl _, ?_⟩
    intro a ha
    simp [State.init] at ha
  have hbound0 : ∀ sp,
      sumSizes (((State.init 0).current_allocations) sp).alloc_set +
        allocSizesSum evts < UINT64 := by
    intro sp
    simpa [State.init, sumSizes] using h2
  obtain ⟨hinv, htr⟩ := runMem_ledger evts _ _ h1 hinv0 hbound0
  refine ⟨fun sp => (hinv sp).1, fun sp => htr sp, ?_⟩
  intro pre e' hsplit hde
  rw [hsplit] at h1
  rw [runMem_append] at h1
  cases hpre : runMem (State.init 0) pre with
  | error msg =>
      rw [hpre] at h1
      exact Except.noConfusion h1
  | ok s0 =>
      rw [hpre] at h1
      refine ⟨s0, rfl, ?_⟩
      simp only [runMem] at h1
      cases hst : stepMem s0 e' with
      | error msg =>
          rw [hst] at h1
          exact Except.noConfusion h1
      | ok s2 =>
          rw [hst] at h1
          simp only [runMem, Except.ok.injEq] at h1
          subst h1
          cases e' with
          | alloc _ _ _ _ => simp [MemEvent.isDealloc] at hde
          | dealloc sp n p z =>
              exact deallocate_keeps_snapshot s0 s2 sp n p z hst

/-- C3, witness: the spec's scenario — allocate `buf1` (1000 bytes),
allocate `buf2` (200 bytes), deallocate `buf1` — together with its
concrete outcome: current total 200, snapshot total 1200. -/
theorem allocation_ledger_invariant_witness :
    runMem (State.init 0) allocScenarioEvents = .ok allocScenarioState ∧
    allocSizesSum allocScenarioEvents < UINT64 ∧
    ((∀ sp, (allocScenarioState.current_allocations sp).total_size =
      sumSizes (allocScenarioState.current_allocations sp).alloc_set) ∧
     (∀ sp, (allocScenarioState.hwm_allocations sp).total_size =
      maxTotalObserved sp (State.init 0) allocScenarioEvents) ∧
     (∀ pre e', allocScenarioEvents = pre ++ [e'] → e'.isDealloc = true →
      ∃ s0, runMem (State.init 0) pre = .ok s0 ∧
        allocScenarioState.hwm_allocations = s0.hwm_allocations)) ∧
    (allocScenarioState.current_allocations .SPACE_HOST).total_size = 200 ∧
    (allocScenarioState.hwm_allocations .SPACE_HOST).total_size = 1200 :=
  ⟨rfl, by decide, allocation_ledger_invariant _ _ rfl (by decide),
    by decide, by decide⟩

theorem reduceNode_name (n : Nat) (others : List StackNode) (t : StackNode) :
    (reduceNode n others t).name = t.name ∧
    (reduceNode n others t).kind = t.kind := by
  cases t
  exact ⟨rfl, rfl⟩

theorem findChild_reduceChildren (n : Nat) (ok : List (List StackNode)) :
    ∀ (l : List StackNode) (k : Key),
      findChild (reduceChildren n ok l) k =
        (findChild l k).map (fun c => reduceNode n
          (ok.map (fun cl =>
            match findChild cl c.key with
            | some c' => c'
            | none => newNode c.key)) c) := by
  intro l k
  induction l with
  | nil => rfl
  | cons c rest ih =>
      have hnk := reduceNode_name n
        (ok.map (fun cl =>
          match findChild cl c.key with
          | some c' => c'
          | none => newNode c.key)) c
      by_cases hc : (c.kind = k.1 ∧ c.name = k.2)
      · simp only [reduceChildren]
        rw [findChild_cons_pos _ _ _
            ⟨by rw [hnk.2]; exact hc.1, by rw [hnk.1]; exact hc.2⟩,
          findChild_cons_pos _ _ _ hc]
        rfl
      · simp only [reduceChildren]
        rw [findChild_cons_neg _ _ _
            (by rw [hnk.2, hnk.1]; exact hc),
          findChild_cons_neg _ _ _ hc, ih]

theorem rankRuntime_step (o : StackNode) (k : Key) (ks : List Key) :
    rankRuntime
      (match findChild o.children k with
       | some c' => c'
       | none => newNode k) ks = rankRuntime o (k :: ks) := by
  cases hf : findChild o.children k with
  | some c' => simp [rankRuntime, lookupAt, hf]
  | none =>
      cases ks with
      | nil =>
          simp [rankRuntime, lookupAt, hf, newNode, StackNode.total_runtime]
      | cons k2 ks2 =>
          have h1 : lookupAt (newNode k) (k2 :: ks2) = none := by
            simp only [lookupAt, newNode, StackNode.children, findChild_nil]
          have h2 : lookupAt o (k :: k2 :: ks2) = none := by
            simp only [lookupAt, hf]
          simp [rankRuntime, h1, h2]

theorem lookupAt_reduceNode (p : List Key) :
    ∀ (n : Nat) (others : List StackNode) (t : StackNode),
      ((lookupAt (reduceNode n others t) p).isSome ↔
        (lookupAt t p).isSome) ∧
      (∀ m, lookupAt (reduceNode n others t) p = some m →
        ∃ a, lookupAt t p = some a ∧
          m.name = a.name ∧ m.kind = a.kind ∧
          m.number_of_calls = a.number_of_calls ∧
          m.total_runtime = a.total_runtime +
            (others.map (fun o => rankRuntime o p)).sum ∧
          m.max_runtime = (others.map (fun o => rankRuntime o p)).foldl max
            a.total_runtime ∧
          m.avg_runtime = m.total_runtime / (n : ℚ)) := by
  induction p with
  | nil =>
      intro n others t
      obtain ⟨nm, kd, cs, tr, mr, ar, cl, st⟩ := t
      constructor
      · simp [lookupAt]
      · intro m hm
        simp only [lookupAt, Option.some.injEq] at hm
        subst hm
        refine ⟨_, rfl, ?_⟩
        have hrr : (others.map (fun o => rankRuntime o [])) =
            others.map StackNode.total_runtime := by
          congr 1
        simp [reduceNode, StackNode.name, StackNode.kind,
          StackNode.number_of_calls, StackNode.total_runtime,
          StackNode.max_runtime, StackNode.avg_runtime, hrr]
  | cons k ks ih =>
      intro n others t
      obtain ⟨nm, kd, cs, tr, mr, ar, cl, st⟩ := t
      constructor
      · simp only [lookupAt, StackNode.children, reduceNode]
        rw [findChild_reduceChildren]
        cases hf : findChild cs k with
        | none => simp
        | some c =>
            have hk : c.key = k := by
              obtain ⟨h1, h2⟩ := findChild_key_of_some cs k c hf
              obtain ⟨ka, kb⟩ := k
              simp only at h1 h2
              simp [StackNode.key, h1, h2]
            simp only [hk, Option.map_some']
            exact (ih n _ c).1
      · intro m hm
        simp only [lookupAt, StackNode.children, reduceNode] at hm
        rw [findChild_reduceChildren] at hm
        cases hf : findChild cs k with
        | none =>
            rw [hf] at hm
            simp at hm
        | some c =>
            rw [hf] at hm
            have hk : c.key = k := by
              obtain ⟨h1, h2⟩ := findChild_key_of_some cs k c hf
              obtain ⟨ka, kb⟩ := k
              simp only at h1 h2
              simp [StackNode.key, h1, h2]
            simp only [Option.map_some'] at hm
            rw [hk] at hm
            obtain ⟨a, ha, h1, h2, h3, h4, h5, h6⟩ := (ih n _ c).2 m hm
            have hlist : ((others.map StackNode.children).map (fun cl =>
                match findChild cl k with
                | some c' => c'
                | none => newNode k)).map (fun o => rankRuntime o ks) =
                others.map (fun o => rankRuntime o (k :: ks)) := by
              rw [List.map_map, List.map_map]
              congr 1
              funext o
              exact rankRuntime_step o k ks
            rw [hlist] at h4 h5
            refine ⟨a, ?_, h1, h2, h3, h4, h5, h6⟩
            simp only [lookupAt, StackNode.children, hf]
            exact ha

/-- C1: cross-process reduction with rank 0 as shape authority.  The
merged tree has a node exactly at the authority's paths; every merged
frame's `total_runtime` is the sum over all ranks of that frame's
runtime (`0` standing for ranks that never called it), `max_runtime`
the maximum, and `avg_runtime` the sum divided by the group size.  In
the 2-process scenario — rank 0 holding `{A, B}`, rank 1 `{A, C}` —
the merged children are exactly `{A, B}` (C is silently dropped), with
A's total/max/avg combined across both ranks and B represented with a
zero contribution from rank 1. -/
theorem reduce_over_mpi_authority_shape :
    (∀ (auth : StackNode) (others : List StackNode) (p : List Key),
      ((lookupAt (reduce_over_mpi auth others) p).isSome ↔
        (lookupAt auth p).isSome) ∧
      (∀ m, lookupAt (reduce_over_mpi auth others) p = some m →
        ∃ a, lookupAt auth p = some a ∧
          m.total_runtime = a.total_runtime +
            (others.map (fun o => rankRuntime o p)).sum ∧
          m.max_runtime = (others.map (fun o => rankRuntime o p)).foldl max
            a.total_runtime ∧
          m.avg_runtime = m.total_runtime / ((1 + others.length : ℕ) : ℚ))) ∧
    (reduce_over_mpi rank0Tree [rank1Tree]).children.map StackNode.key =
      [(.STACK_FOR, "A"), (.STACK_FOR, "B")] ∧
    lookupAt (reduce_over_mpi rank0Tree [rank1Tree]) [(.STACK_FOR, "C")] =
      none ∧
    (∃ mA, lookupAt (reduce_over_mpi rank0Tree [rank1Tree]) [(.STACK_FOR, "A")]
        = some mA ∧
      mA.total_runtime = 5 ∧ mA.max_runtime = 3 ∧ mA.avg_runtime = 5 / 2) ∧
    (∃ mB, lookupAt (reduce_over_mpi rank0Tree [rank1Tree]) [(.STACK_FOR, "B")]
        = some mB ∧
      rankRuntime rank1Tree [(.STACK_FOR, "B")] = 0 ∧
      mB.total_runtime = 4 ∧ mB.max_runtime = 4 ∧ mB.avg_runtime = 2) := by
  refine ⟨?_, ?_, ?_, ?_, ?_⟩
  · intro auth others p
    obtain ⟨hiff, hsome⟩ := lookupAt_reduceNode p (1 + others.length) others auth
    refine ⟨hiff, fun m hm => ?_⟩
    obtain ⟨a, ha, _, _, _, h4, h5, h6⟩ := hsome m hm
    exact ⟨a, ha, h4, h5, h6⟩
  · simp +decide [reduce_over_mpi, reduceNode, reduceChildren, rank0Tree,
      rank1Tree, findChild, List.find?, newNode, StackNode.key,
      StackNode.kind, StackNode.name, StackNode.children]
  · simp +decide [reduce_over_mpi, reduceNode, reduceChildren, rank0Tree,
      rank1Tree, lookupAt, findChild, List.find?, newNode, StackNode.key,
      StackNode.kind, StackNode.name, StackNode.children]
  · simp +decide [reduce_over_mpi, reduceNode, reduceChildren, rank0Tree,
      rank1Tree, lookupAt, findChild, List.find?, newNode, StackNode.key,
      StackNode.kind, StackNode.name, StackNode.children,
      StackNode.total_runtime, StackNode.max_runtime, StackNode.avg_runtime]
    norm_num
  · simp +decide [reduce_over_mpi, reduceNode, reduceChildren, rank0Tree,
      rank1Tree, lookupAt, findChild, List.find?, newNode, StackNode.key,
      StackNode.kind, StackNode.name, StackNode.children, rankRuntime,
      StackNode.total_runtime, StackNode.max_runtime, StackNode.avg_runtime]
    norm_num

theorem reduce_over_mpi_authority_shape_witness :
    ∃ m, lookupAt (reduce_over_mpi rank0Tree [rank1Tree])
        [((.STACK_FOR : StackKind), "A")] = some m ∧
      ∃ a, lookupAt rank0Tree [((.STACK_FOR : StackKind), "A")] = some a ∧
        m.total_runtime = a.total_runtime +
          ([rank1Tree].map
            (fun o => rankRuntime o [((.STACK_FOR : StackKind), "A")])).sum := by
  have hgen := reduce_over_mpi_authority_shape.1 rank0Tree [rank1Tree]
    [((.STACK_FOR : StackKind), "A")]
  have hs : (lookupAt (reduce_over_mpi rank0Tree [rank1Tree])
      [((.STACK_FOR : StackKind), "A")]).isSome := by
    refine hgen.1.mpr ?_
    decide
  obtain ⟨m, hm⟩ := Option.isSome_iff_exists.mp hs
  obtain ⟨a, ha, h4, _, _⟩ := hgen.2 m hm
  exact ⟨m, hm, a, ha, h4⟩

theorem self_mem_allNodes (t : StackNode) : t ∈ allNodes t := by
  obtain ⟨nm, kd, cs, tr, mr, ar, cl, st⟩ := t
  simp [allNodes]

theorem mem_allNodesList_of (c m : StackNode) :
    ∀ (cs : List StackNode), c ∈ cs → m ∈ allNodes c → m ∈ allNodesList cs := by
  intro cs
  induction cs with
  | nil => intro h; exact absurd h (List.not_mem_nil c)
  | cons x xs ih =>
      intro hc hm
      rcases List.mem_cons.mp hc with h | h
      · subst h
        simp only [allNodesList, List.mem_append]
        exact Or.inl hm
      · simp only [allNodesList, List.mem_append]
        exact Or.inr (ih h hm)

theorem allNodes_trans (t c m : StackNode) (hc : c ∈ t.children)
    (hm : m ∈ allNodes c) : m ∈ allNodes t := by
  obtain ⟨nm, kd, cs, tr, mr, ar, cl, st⟩ := t
  simp only [StackNode.children] at hc
  simp only [allNodes, List.mem_cons]
  exact Or.inr (mem_allNodesList_of c m cs hc hm)

theorem mem_insertByTime (c x : StackNode) :
    ∀ (l : List StackNode), x ∈ insertByTime l c → x ∈ l ∨ x = c := by
  intro l
  induction l with
  | nil =>
      intro h
      simp only [insertByTime, List.mem_singleton] at h
      exact Or.inr h
  | cons y ys ih =>
      intro h
      simp only [insertByTime] at h
      by_cases h1 : byTime c y
      · rw [if_pos h1] at h
        rcases List.mem_cons.mp h with h | h
        · exact Or.inr h
        · exact Or.inl h
      · rw [if_neg h1] at h
        by_cases h2 : byTime y c
        · rw [if_pos h2] at h
          rcases List.mem_cons.mp h with h | h
          · subst h; exact Or.inl (List.mem_cons_self x ys)
          · rcases ih h with h | h
            · exact Or.inl (List.mem_cons_of_mem y h)
            · exact Or.inr h
        · rw [if_neg h2] at h
          exact Or.inl h

theorem mem_foldl_insertByTime (x : StackNode) :
    ∀ (l acc : List StackNode),
      x ∈ l.foldl insertByTime acc → x ∈ acc ∨ x ∈ l := by
  intro l
  induction l with
  | nil => intro acc h; exact Or.inl h
  | cons c cs ih =>
      intro acc h
      rcases ih (insertByTime acc c) h with h | h
      · rcases mem_insertByTime c x acc h with h | h
        · exact Or.inl h
        · subst h; exact Or.inr (List.mem_cons_self x cs)
      · exact Or.inr (List.mem_cons_of_mem c h)

theorem mem_childrenByTime (l : List StackNode) (x : StackNode)
    (h : x ∈ childrenByTime l) : x ∈ l := by
  rcases mem_foldl_insertByTime x l [] h with h | h
  · exact absurd h (List.not_mem_nil x)
  · exact h

theorem reduceChildren_nil (n : Nat) :
    ∀ (l : List StackNode), reduceChildren n [] l = l.map (reduceNode n []) := by
  intro l
  induction l with
  | nil => rfl
  | cons c cs ih => simp [reduceChildren, ih]

theorem reduceNode_one_fields (t : StackNode) :
    (reduceNode 1 [] t).max_runtime = (reduceNode 1 [] t).total_runtime ∧
    (reduceNode 1 [] t).avg_runtime = (reduceNode 1 [] t).total_runtime := by
  obtain ⟨nm, kd, cs, tr, mr, ar, cl, st⟩ := t
  simp [reduceNode, StackNode.max_runtime, StackNode.total_runtime,
    StackNode.avg_runtime]

theorem mem_allNodes_reduce_single :
    ∀ (N : Nat) (t : StackNode), treeSize t ≤ N →
      ∀ m ∈ allNodes (reduceNode 1 [] t),
        ∃ a ∈ allNodes t, m = reduceNode 1 [] a := by
  intro N
  induction N with
  | zero =>
      intro t ht
      obtain ⟨nm, kd, cs, tr, mr, ar, cl, st⟩ := t
      simp [treeSize] at ht
  | succ N ih =>
      intro t ht m hm
      obtain ⟨nm, kd, cs, tr, mr, ar, cl, st⟩ := t
      have hcs : treeSizeList cs ≤ N := by
        simp only [treeSize] at ht; omega
      simp only [reduceNode, List.map_nil, List.sum_nil, List.foldl_nil,
        reduceChildren_nil, allNodes, List.mem_cons] at hm
      have inner : ∀ (ds : List StackNode), treeSizeList ds ≤ N →
          ∀ m ∈ allNodesList (ds.map (reduceNode 1 [])),
            ∃ a ∈ allNodesList ds, m = reduceNode 1 [] a := by
        intro ds
        induction ds with
        | nil => intro _ m hm; simp [allNodesList] at hm
        | cons d ds ihd =>
            intro hds m hm
            simp only [List.map_cons, allNodesList, List.mem_append] at hm
            have hd : treeSize d ≤ N := by
              simp only [treeSizeList] at hds; omega
            have hds' : treeSizeList ds ≤ N := by
              simp only [treeSizeList] at hds
              have := Nat.le_trans (Nat.le_add_left (treeSizeList ds)
                (treeSize d)) hds
              exact this
            rcases hm with hm | hm
            · obtain ⟨a, ha, hae⟩ := ih d hd m hm
              refine ⟨a, ?_, hae⟩
              simp only [allNodesList, List.mem_append]
              exact Or.inl ha
            · obtain ⟨a, ha, hae⟩ := ihd hds' m hm
              refine ⟨a, ?_, hae⟩
              simp only [allNodesList, List.mem_append]
              exact Or.inr ha
      rcases hm with hm | hm
      · refine ⟨.mk nm kd cs tr mr ar cl st, ?_, ?_⟩
        · simp [allNodes]
        · rw [hm]
          simp [reduceNode, reduceChildren_nil]
      · obtain ⟨a, ha, hae⟩ := inner cs hcs m hm
        refine ⟨a, ?_, hae⟩
        simp only [allNodes, List.mem_cons]
        exact Or.inr ha

theorem print_line_source :
    ∀ (fuel : Nat) (t : StackNode) (mi ci : String) (tt : ℚ),
      ∀ line ∈ print_recursive fuel t mi ci tt,
        ∃ m ∈ allNodes t, ¬ (m.total_runtime / tt * 100 < 1/10) ∧
          line.imbalance = (m.max_runtime / m.avg_runtime - 1) * 100 := by
  intro fuel
  induction fuel with
  | zero => intro t mi ci tt line h; simp [print_recursive] at h
  | succ fuel ih =>
      intro t mi ci tt line h
      simp only [print_recursive] at h
      by_cases hp : t.total_runtime / tt * 100 < 1/10
      · rw [if_pos hp] at h
        exact absurd h (List.not_mem_nil line)
      · rw [if_neg hp] at h
        have hown : ∀ line ∈ (if t.name = "" then ([] : List PrintLine)
            else [⟨mi, t.total_runtime / tt * 100,
              (t.max_runtime / t.avg_runtime - 1) * 100,
              t.number_of_calls, t.name, t.kind⟩]),
            ∃ m ∈ allNodes t, ¬ (m.total_runtime / tt * 100 < 1/10) ∧
              line.imbalance = (m.max_runtime / m.avg_runtime - 1) * 100 := by
          intro l hl
          by_cases hn : t.name = ""
          · rw [if_pos hn] at hl
            exact absurd hl (List.not_mem_nil l)
          · rw [if_neg hn] at hl
            rcases List.mem_singleton.mp hl with h
            refine ⟨t, self_mem_allNodes t, hp, ?_⟩
            rw [h]
        by_cases hce : t.children.isEmpty
        · rw [if_pos hce] at h
          exact hown line h
        · rw [if_neg hce] at h
          rcases List.mem_append.mp h with h | h
          · exact hown line h
          · obtain ⟨ic, hic, hline⟩ := List.mem_flatMap.mp h
            have hcm : ic.2 ∈ childrenByTime t.children := by
              have hg := List.mem_enum_iff_getElem?.mp hic
              exact List.getElem?_mem hg
            have hch : ic.2 ∈ t.children := mem_childrenByTime _ _ hcm
            obtain ⟨m, hm, hth, himb⟩ := ih ic.2 _ _ tt line hline
            exact ⟨m, allNodes_trans t ic.2 m hch hm, hth, himb⟩

/-- C9: imbalance is zero when non-distributed.  After a reduction
over a group of size 1 (no other ranks), every node of the merged tree
has `max_runtime = total_runtime` and `avg_runtime = total_runtime`,
so the imbalance `(max_runtime / avg_runtime - 1) * 100` of every
emitted report line is `0`. -/
theorem single_process_no_imbalance :
    (∀ (t : StackNode), ∀ m ∈ allNodes (reduce_over_mpi t []),
        m.max_runtime = m.total_runtime ∧ m.avg_runtime = m.total_runtime) ∧
    (∀ (t : StackNode), ∀ line ∈ (reduce_over_mpi t []).print,
        line.imbalance = 0) := by
  have key : ∀ (t : StackNode), ∀ m ∈ allNodes (reduce_over_mpi t []),
      m.max_runtime = m.total_runtime ∧ m.avg_runtime = m.total_runtime := by
    intro t m hm
    have hr : reduce_over_mpi t [] = reduceNode 1 [] t := rfl
    rw [hr] at hm
    obtain ⟨a, _, hae⟩ := mem_allNodes_reduce_single (treeSize t) t le_rfl m hm
    rw [hae]
    exact reduceNode_one_fields a
  refine ⟨key, ?_⟩
  intro t line hline
  rw [StackNode.print] at hline
  obtain ⟨m, hm, hth, himb⟩ := print_line_source _ _ _ _ _ line hline
  have hfields := key t m hm
  have hne : m.total_runtime ≠ 0 := by
    intro h0
    apply hth
    rw [h0]
    norm_num
  rw [himb, hfields.1, hfields.2, div_self hne]
  norm_num

theorem single_process_no_imbalance_witness :
    reduce_over_mpi printScenarioTree [] ∈
        allNodes (reduce_over_mpi printScenarioTree []) ∧
    (reduce_over_mpi printScenarioTree []).max_runtime =
        (reduce_over_mpi printScenarioTree []).total_runtime ∧
    (reduce_over_mpi printScenarioTree []).avg_runtime =
        (reduce_over_mpi printScenarioTree []).total_runtime := by
  have hm := self_mem_allNodes (reduce_over_mpi printScenarioTree [])
  exact ⟨hm, single_process_no_imbalance.1 printScenarioTree _ hm⟩

theorem insertByTime_head_cases (c : StackNode) (l : List StackNode) :
    (insertByTime l c).head? = some c ∨ (insertByTime l c).head? = l.head? := by
  cases l with
  | nil => exact Or.inl rfl
  | cons y ys =>
      simp only [insertByTime]
      by_cases h1 : byTime c y
      · rw [if_pos h1]; exact Or.inl rfl
      · rw [if_neg h1]
        by_cases h2 : byTime y c
        · rw [if_pos h2]; exact Or.inr rfl
        · rw [if_neg h2]; exact Or.inr rfl

theorem chain_insertByTime (c : StackNode) :
    ∀ (l : List StackNode),
      List.Chain' (fun a b => byTime a b = true) l →
      List.Chain' (fun a b => byTime a b = true) (insertByTime l c) := by
  intro l
  induction l with
  | nil => intro _; simp [insertByTime]
  | cons x xs ih =>
      intro hch
      rw [List.chain'_cons'] at hch
      simp only [insertByTime]
      by_cases h1 : byTime c x
      · rw [if_pos h1]
        rw [List.chain'_cons]
        exact ⟨h1, List.chain'_cons'.mpr hch⟩
      · rw [if_neg h1]
        by_cases h2 : byTime x c
        · rw [if_pos h2]
          rw [List.chain'_cons']
          refine ⟨?_, ih hch.2⟩
          intro y hy
          rcases insertByTime_head_cases c xs with hh | hh
          · rw [hh] at hy
            have h : c = y := Option.some_inj.mp hy
            exact h ▸ h2
          · rw [hh] at hy
            exact hch.1 y hy
        · rw [if_neg h2]
          exact List.chain'_cons'.mpr hch

theorem chain_childrenByTime (l : List StackNode) :
    List.Chain' (fun a b => byTime a b = true) (childrenByTime l) := by
  have gen : ∀ (l acc : List StackNode),
      List.Chain' (fun a b => byTime a b = true) acc →
      List.Chain' (fun a b => byTime a b = true)
        (l.foldl insertByTime acc) := by
    intro l
    induction l with
    | nil => intro acc h; exact h
    | cons x xs ih =>
        intro acc h
        exact ih (insertByTime acc x) (chain_insertByTime x acc h)
  exact gen l [] List.chain'_nil

theorem byTime_spec (a b : StackNode) :
    byTime a b = true ↔
      (b.total_runtime < a.total_runtime ∨
       (a.total_runtime = b.total_runtime ∧ a.name < b.name)) := by
  simp only [byTime]
  by_cases h : a.total_runtime ≠ b.total_runtime
  · rw [if_pos h, decide_eq_true_iff]
    constructor
    · intro hgt
      exact Or.inl hgt
    · intro hor
      rcases hor with hlt | ⟨he, _⟩
      · exact hlt
      · exact absurd he h
  · rw [if_neg h, decide_eq_true_iff]
    push_neg at h
    constructor
    · intro hn
      exact Or.inr ⟨h, hn⟩
    · intro hor
      rcases hor with hlt | ⟨_, hn⟩
      · rw [h] at hlt
        exact absurd hlt (lt_irrefl _)
      · exact hn

theorem mem_insertByTime_of_mem (d x : StackNode) :
    ∀ (l : List StackNode), x ∈ l → x ∈ insertByTime l d := by
  intro l
  induction l with
  | nil => intro h; exact absurd h (List.not_mem_nil x)
  | cons y ys ih =>
      intro h
      simp only [insertByTime]
      by_cases h1 : byTime d y
      · rw [if_pos h1]
        exact List.mem_cons_of_mem d h
      · rw [if_neg h1]
        by_cases h2 : byTime y d
        · rw [if_pos h2]
          rcases List.mem_cons.mp h with h | h
          · subst h; exact List.mem_cons_self x _
          · exact List.mem_cons_of_mem y (ih h)
        · rw [if_neg h2]
          exact h

theorem self_mem_insertByTime (c : StackNode) :
    ∀ (l : List StackNode),
      (∀ x ∈ l, x = c ∨ byTime c x = true ∨ byTime x c = true) →
      c ∈ insertByTime l c := by
  intro l
  induction l with
  | nil => intro _; simp [insertByTime]
  | cons y ys ih =>
      intro hties
      simp only [insertByTime]
      by_cases h1 : byTime c y
      · rw [if_pos h1]
        exact List.mem_cons_self c _
      · rw [if_neg h1]
        by_cases h2 : byTime y c
        · rw [if_pos h2]
          refine List.mem_cons_of_mem y (ih ?_)
          intro x hx
          exact hties x (List.mem_cons_of_mem y hx)
        · rw [if_neg h2]
          rcases hties y (List.mem_cons_self y ys) with h | h | h
          · rw [h]; exact List.mem_cons_self c ys
          · exact absurd h h1
          · exact absurd h h2

theorem mem_foldl_insertByTime_of_acc (x : StackNode) :
    ∀ (l acc : List StackNode), x ∈ acc → x ∈ l.foldl insertByTime acc := by
  intro l
  induction l with
  | nil => intro acc h; exact h
  | cons y ys ih =>
      intro acc h
      exact ih (insertByTime acc y) (mem_insertByTime_of_mem y x acc h)

theorem mem_childrenByTime_of_mem (c : StackNode) (l : List StackNode)
    (hc : c ∈ l)
    (hties : ∀ x ∈ l, x = c ∨ byTime c x = true ∨ byTime x c = true) :
    c ∈ childrenByTime l := by
  have gen : ∀ (l acc : List StackNode), c ∈ l →
      (∀ x ∈ l, x = c ∨ byTime c x = true ∨ byTime x c = true) →
      (∀ x ∈ acc, x = c ∨ byTime c x = true ∨ byTime x c = true) →
      c ∈ l.foldl insertByTime acc := by
    intro l
    induction l with
    | nil => intro acc h; exact absurd h (List.not_mem_nil c)
    | cons y ys ih =>
        intro acc hc hl hacc
        have hacc' : ∀ x ∈ insertByTime acc y,
            x = c ∨ byTime c x = true ∨ byTime x c = true := by
          intro x hx
          rcases mem_insertByTime y x acc hx with h | h
          · exact hacc x h
          · subst h
            exact hl x (List.mem_cons_self x ys)
        rcases List.mem_cons.mp hc with h | h
        · subst h
          exact mem_foldl_insertByTime_of_acc c ys _
            (self_mem_insertByTime c acc hacc)
        · exact ih (insertByTime acc y) h
            (fun x hx => hl x (List.mem_cons_of_mem y hx)) hacc'
  exact gen l [] hc hties (fun x hx => absurd hx (List.not_mem_nil x))

theorem print_below_threshold (fuel : Nat) (t : StackNode)
    (mi ci : String) (tt : ℚ)
    (h : t.total_runtime / tt * 100 < 1/10) :
    print_recursive fuel t mi ci tt = [] := by
  cases fuel with
  | zero => rfl
  | succ fuel =>
      simp only [print_recursive]
      rw [if_pos h]

theorem print_self_line (fuel : Nat) (t : StackNode) (mi ci : String) (tt : ℚ)
    (hp : ¬ (t.total_runtime / tt * 100 < 1/10)) (hn : ¬ t.name = "")
    (hf : 1 ≤ fuel) :
    (⟨mi, t.total_runtime / tt * 100,
      (t.max_runtime / t.avg_runtime - 1) * 100,
      t.number_of_calls, t.name, t.kind⟩ : PrintLine) ∈
        print_recursive fuel t mi ci tt := by
  cases fuel with
  | zero => exact absurd hf (by omega)
  | succ fuel =>
      simp only [print_recursive]
      rw [if_neg hp, if_neg hn]
      by_cases hce : t.children.isEmpty
      · rw [if_pos hce]
        exact List.mem_singleton.mpr rfl
      · rw [if_neg hce]
        exact List.mem_append.mpr (Or.inl (List.mem_singleton.mpr rfl))

theorem print_emits_child (fuel : Nat) (t c : StackNode) (mi ci : String)
    (tt : ℚ) (hf : 2 ≤ fuel)
    (hp : ¬ (t.total_runtime / tt * 100 < 1/10))
    (hc : c ∈ t.children)
    (hties : ∀ x ∈ t.children, x = c ∨ byTime c x = true ∨ byTime x c = true)
    (hcp : ¬ (c.total_runtime / tt * 100 < 1/10)) (hcn : ¬ c.name = "") :
    ∃ line ∈ print_recursive fuel t mi ci tt,
      line.percent = c.total_runtime / tt * 100 ∧
      line.imbalance = (c.max_runtime / c.avg_runtime - 1) * 100 ∧
      line.number_of_calls = c.number_of_calls ∧
      line.name = c.name ∧ line.kind = c.kind := by
  match fuel, hf with
  | f + 2, _ =>
    simp only [print_recursive]
    rw [if_neg hp]
    have hne : t.children ≠ [] := List.ne_nil_of_mem hc
    have hce : ¬ t.children.isEmpty = true := by
      simp [List.isEmpty_iff, hne]
    rw [if_neg hce]
    have hcbt : c ∈ childrenByTime t.children :=
      mem_childrenByTime_of_mem c t.children hc hties
    obtain ⟨i, hi⟩ := List.mem_iff_getElem?.mp hcbt
    have henum : (i, c) ∈ (childrenByTime t.children).enum :=
      List.mem_enum_iff_getElem?.mpr hi
    have hline := print_self_line (f + 1) c (ci ++ "|-> ")
      (ci ++ (if i = (childrenByTime t.children).length - 1 then "    "
        else "|   ")) tt hcp hcn (by omega)
    refine ⟨_, List.mem_append.mpr (Or.inr (List.mem_flatMap.mpr
      ⟨(i, c), henum, hline⟩)), rfl, rfl, rfl, rfl, rfl⟩

/-- C7: printing order and threshold.  The `by_time` child ordering is
descending `total_runtime` with ties broken by ascending name, and the
`children_by_time` set is sorted by it; a frame whose share of the
tree total is below 0.1% is suppressed together with its entire
subtree; a child at or above the threshold with a non-empty name (and
not dropped as an exact duplicate by the set insertion) is emitted
with its percent, imbalance, call count, name and kind; in the
10ms-"A" / 30ms-"B" scenario the report is exactly the B line (75%)
followed by the A line (25%). -/
theorem print_order_and_threshold :
    (∀ (a b : StackNode), byTime a b = true ↔
        (b.total_runtime < a.total_runtime ∨
         (a.total_runtime = b.total_runtime ∧ a.name < b.name))) ∧
    (∀ (l : List StackNode),
        List.Chain' (fun a b => byTime a b = true) (childrenByTime l)) ∧
    (∀ (fuel : Nat) (t : StackNode) (mi ci : String) (tt : ℚ),
        t.total_runtime / tt * 100 < 1/10 →
        print_recursive fuel t mi ci tt = []) ∧
    (∀ (fuel : Nat) (t c : StackNode) (mi ci : String) (tt : ℚ),
        2 ≤ fuel → ¬ (t.total_runtime / tt * 100 < 1/10) →
        c ∈ t.children →
        (∀ x ∈ t.children, x = c ∨ byTime c x = true ∨ byTime x c = true) →
        ¬ (c.total_runtime / tt * 100 < 1/10) → ¬ c.name = "" →
        ∃ line ∈ print_recursive fuel t mi ci tt,
          line.percent = c.total_runtime / tt * 100 ∧
          line.imbalance = (c.max_runtime / c.avg_runtime - 1) * 100 ∧
          line.number_of_calls = c.number_of_calls ∧
          line.name = c.name ∧ line.kind = c.kind) ∧
    (reduce_over_mpi printScenarioTree []).print =
      [⟨"|-> ", 75, 0, 1, "B", .STACK_FOR⟩,
       ⟨"|-> ", 25, 0, 1, "A", .STACK_FOR⟩] := by
  refine ⟨byTime_spec, chain_childrenByTime, print_below_threshold,
    print_emits_child, ?_⟩
  simp +decide [StackNode.print, reduce_over_mpi, reduceNode, reduceChildren,
    printScenarioTree, treeSize, treeSizeList, print_recursive,
    childrenByTime, insertByTime, byTime, StackNode.name, StackNode.kind,
    StackNode.children, StackNode.total_runtime, StackNode.max_runtime,
    StackNode.avg_runtime, StackNode.number_of_calls, StackNode.start_time,
    List.enum, List.flatMap]
  norm_num

theorem print_order_and_threshold_witness :
    ∃ line ∈ print_recursive 2 printScenarioTree "" "" 40,
      line.percent =
        (StackNode.mk "B" .STACK_FOR [] 30 0 0 1 0).total_runtime / 40 * 100 ∧
      line.imbalance =
        ((StackNode.mk "B" .STACK_FOR [] 30 0 0 1 0).max_runtime /
          (StackNode.mk "B" .STACK_FOR [] 30 0 0 1 0).avg_runtime - 1) * 100 ∧
      line.number_of_calls =
        (StackNode.mk "B" .STACK_FOR [] 30 0 0 1 0).number_of_calls ∧
      line.name = (StackNode.mk "B" .STACK_FOR [] 30 0 0 1 0).name ∧
      line.kind = (StackNode.mk "B" .STACK_FOR [] 30 0 0 1 0).kind := by
  refine print_order_and_threshold.2.2.2.1 2 printScenarioTree
    (.mk "B" .STACK_FOR [] 30 0 0 1 0) "" "" 40 (by omega) ?_ ?_ ?_ ?_ ?_
  · norm_num [printScenarioTree, StackNode.total_runtime]
  · simp +decide [printScenarioTree, StackNode.children]
  · intro x hx
    simp only [printScenarioTree, StackNode.children, List.mem_cons,
      List.not_mem_nil, or_false] at hx
    rcases hx with h | h
    · subst h
      right; left
      rw [byTime_spec]
      left
      norm_num [StackNode.total_runtime]
    · subst h
      left
      rfl
  · norm_num [StackNode.total_runtime]
  · simp [StackNode.name]
